import Mathlib

/-!
Shallow embedding of the chunked dynamic-property engine of this repository
(src/DynamicProperty.ts — the namespaced `DynamicProperty` class — together
with src/regex.ts and src/SerializedValue.ts), plus models of the JS / host
builtins the engine calls: `JSON.stringify`, `JSON.parse`, `encodeURI`,
`decodeURI`, `parseInt`, the stable `Array.prototype.sort`, and the
Minecraft dynamic-property host store (`SupportsDynamicProperties`).

JS strings are modelled as lists of Unicode scalar values (`List Char`);
loops and recursive JS builtins are modelled with explicit fuel so that all
definitions evaluate inside the kernel.  JS numbers are modelled as `Int`
(the spec and claims exercise no fractional or floating-point behaviour).
-/

/-- JS strings, modelled as lists of Unicode scalar values. -/
abbrev JStr := List Char

/-- Turns a Lean string literal into a `JStr`. -/
def js (s : String) : JStr := s.data

/-- Decimal digit character for `n < 10`. -/
def digitChar (n : Nat) : Char := Char.ofNat (48 + n)

/-- Fuel-driven decimal rendering of a natural number (most significant first). -/
def natDigitsAux : Nat → Nat → JStr
  | 0, _ => []
  | fuel + 1, n =>
    if n < 10 then [digitChar n]
    else natDigitsAux fuel (n / 10) ++ [digitChar (n % 10)]

/-- Model of JS number-to-string for a natural number: decimal, no padding. -/
def natToStr (n : Nat) : JStr := natDigitsAux (n + 1) n

/-- Model of JS number-to-string for an integer. -/
def intToStr (n : Int) : JStr :=
  if n < 0 then '-' :: natToStr n.natAbs else natToStr n.toNat

/-- Value of a string of decimal digits. -/
def digitsToNat (s : JStr) : Nat := s.foldl (fun acc c => acc * 10 + (c.toNat - 48)) 0

/-- Model of JS `parseInt` on the suffixes this code feeds it: reads the
leading run of decimal digits, `NaN` (here `none`) if there is none. -/
def jsParseInt (s : JStr) : Option Nat :=
  let ds := s.takeWhile Char.isDigit
  if ds.isEmpty then none else some (digitsToNat ds)

/-- Model of JS `String.prototype.lastIndexOf` for a single character. -/
def lastIndexOf (c : Char) : JStr → Option Nat
  | [] => none
  | x :: xs =>
    match lastIndexOf c xs with
    | some i => some (i + 1)
    | none => if x = c then some 0 else none

/-- JS runtime values, as far as this development needs them: the JSON value
kinds (with numbers restricted to integers) plus `undefined`.  Objects are
field lists in property-enumeration order. -/
inductive JVal where
  | undef
  | null
  | bool (b : Bool)
  | num (n : Int)
  | str (s : JStr)
  | arr (items : List JVal)
  | obj (fields : List (JStr × JVal))

/-- Host-store primitive values: `boolean | number | string | Vector3`
(src/SupportsDynamicProperty.ts); `undefined` is modelled as the absence of
an entry (`Option SVal` = `ValidDynamicPropertyValue`). -/
inductive SVal where
  | bool (b : Bool)
  | num (n : Int)
  | str (s : JStr)
  | vec (x y z : Int)
deriving Repr, DecidableEq

/-- JS property read `fields.k` on an object value (absent gives `undefined`). -/
def getField (fields : List (JStr × JVal)) (k : JStr) : JVal :=
  match fields.find? (fun p => p.1 = k) with
  | none => .undef
  | some p => p.2

/-- Whether `fields.k` is a number (`typeof fields.k === "number"`). -/
def isNumField (fields : List (JStr × JVal)) (k : JStr) : Bool :=
  match getField fields k with
  | .num _ => true
  | _ => false

/-- The boolean `isSerializedValue` (src/SerializedValue.ts) evaluates to on
inputs where it does not throw: booleans, numbers, strings, `undefined`,
and objects with numeric `x`, `y`, `z` fields.  An array is
`typeof "object"` but `[].x` is `undefined`, hence `false`.  On `null` the
source throws a `TypeError` reading `null.x`; that path is modelled by
`isSerializedValueE` below, which is what `set` evaluates (the value this
function gives `.null` is never consulted). -/
def isSerializedValue : JVal → Bool
  | .undef => true
  | .bool _ => true
  | .num _ => true
  | .str _ => true
  | .null => false
  | .arr _ => false
  | .obj fs => isNumField fs (js "x") && isNumField fs (js "y") && isNumField fs (js "z")

/-- The host-store primitive a serialized `JVal` is stored as (`none` is
`undefined`, which deletes the entry). -/
def jvalToHost : JVal → Option SVal
  | .undef => none
  | .bool b => some (.bool b)
  | .num n => some (.num n)
  | .str s => some (.str s)
  | .obj fs =>
    match getField fs (js "x"), getField fs (js "y"), getField fs (js "z") with
    | .num x, .num y, .num z => some (.vec x y z)
    | _, _, _ => none
  | _ => none

/-- The JS value a host-store primitive reads back as. -/
def svalToJVal : SVal → JVal
  | .bool b => .bool b
  | .num n => .num n
  | .str s => .str s
  | .vec x y z => .obj [(js "x", .num x), (js "y", .num y), (js "z", .num z)]

/-- JS string coercion applied by `value += chunk` in `get`'s multi-chunk
loop (the `as string` cast is type-level only). -/
def jsStringCoerce : Option SVal → JStr
  | none => js "undefined"
  | some (.str s) => s
  | some (.bool true) => js "true"
  | some (.bool false) => js "false"
  | some (.num n) => intToStr n
  | some (.vec _ _ _) => js "[object Object]"

/-- The host store (`SupportsDynamicProperties`): a flat key-value space.
`props` lists the entries in the order `getDynamicPropertyIds` returns
them; the host keeps keys unique (`Owner.WF`). -/
structure Owner where
  props : List (JStr × SVal)
deriving Repr, DecidableEq

/-- `getDynamicPropertyIds()`: all keys, in the host's listing order. -/
def Owner.propIds (o : Owner) : List JStr := o.props.map (fun p => p.1)

/-- `getDynamicProperty(k)`: the stored primitive, or `undefined`. -/
def Owner.getProp (o : Owner) (k : JStr) : Option SVal :=
  match o.props.find? (fun p => p.1 = k) with
  | some p => some p.2
  | none => none

/-- `setDynamicProperty(k, v)`: `undefined` deletes the entry, otherwise the
entry is overwritten in place when present and appended when new. -/
def Owner.setProp (o : Owner) (k : JStr) (v : Option SVal) : Owner :=
  match v with
  | none => ⟨o.props.filter (fun p => ¬ p.1 = k)⟩
  | some sv =>
    if o.props.any (fun p => p.1 = k) then
      ⟨o.props.map (fun p => if p.1 = k then (k, sv) else p)⟩
    else
      ⟨o.props ++ [(k, sv)]⟩

/-- Host well-formedness: keys are unique. -/
def Owner.WF (o : Owner) : Prop := o.propIds.Nodup

/-! ## Model of the JS builtins `JSON.stringify` and `JSON.parse`

`JSON.stringify` is the engine's default serializer and `JSON.parse` its
default deserializer (src/DynamicProperty.ts).  Numbers are restricted to
integers; `undefined` stringifies to `none` at top level, to `null` inside
arrays, and drops the field inside objects, as in JS.  The parser is a
recursive-descent parser driven by fuel; `JSON.parse` inputs containing
lone-surrogate `\u` escapes are modelled as parse failures (Lean `Char`
has no lone surrogates). -/

/-- Hex digit (lowercase), as emitted by `JSON.stringify` in `\u00xx`. -/
def hexDigitLower (n : Nat) : Char :=
  if n < 10 then digitChar n else Char.ofNat (97 + (n - 10))

/-- Hex digit (uppercase), as emitted by `encodeURI` in `%XX`. -/
def hexDigitUpper (n : Nat) : Char :=
  if n < 10 then digitChar n else Char.ofNat (65 + (n - 10))

/-- Value of one hex digit character, either case. -/
def hexVal (c : Char) : Option Nat :=
  if '0' ≤ c ∧ c ≤ '9' then some (c.toNat - 48)
  else if 'A' ≤ c ∧ c ≤ 'F' then some (c.toNat - 55)
  else if 'a' ≤ c ∧ c ≤ 'f' then some (c.toNat - 87)
  else none

/-- The JSON escape of one string character (ECMA-404 / `QuoteJSONString`):
named escapes for `"` `\` and the usual control characters, `\u00xx` for the
remaining control characters, everything else verbatim. -/
def escChar (c : Char) : JStr :=
  if c = '"' then ['\\', '"']
  else if c = '\\' then ['\\', '\\']
  else if c = '\x08' then ['\\', 'b']
  else if c = '\t' then ['\\', 't']
  else if c = '\n' then ['\\', 'n']
  else if c = '\x0c' then ['\\', 'f']
  else if c = '\r' then ['\\', 'r']
  else if c.toNat < 32 then
    ['\\', 'u', '0', '0', hexDigitLower (c.toNat / 16), hexDigitLower (c.toNat % 16)]
  else [c]

/-- A JSON string literal: quote, escaped body, quote. -/
def quoteJStr (s : JStr) : JStr := '"' :: s.flatMap escChar ++ ['"']

/-- Comma-join of already-rendered pieces. -/
def joinCommas : List JStr → JStr
  | [] => []
  | [x] => x
  | x :: xs => x ++ ',' :: joinCommas xs

mutual

/-- Model of `JSON.stringify` (numbers restricted to integers): `none` is
JS returning `undefined`. -/
def stringifyVal : JVal → Option JStr
  | .undef => none
  | .null => some (js "null")
  | .bool true => some (js "true")
  | .bool false => some (js "false")
  | .num n => some (intToStr n)
  | .str s => some (quoteJStr s)
  | .arr xs => some ('[' :: joinCommas (stringifyItems xs) ++ [']'])
  | .obj fs => some ('\x7b' :: joinCommas (stringifyFields fs) ++ ['\x7d'])

/-- Array items: an item JS would stringify to `undefined` becomes `null`. -/
def stringifyItems : List JVal → List JStr
  | [] => []
  | x :: xs => ((stringifyVal x).getD (js "null")) :: stringifyItems xs

/-- Object fields: a field whose value stringifies to `undefined` is dropped. -/
def stringifyFields : List (JStr × JVal) → List JStr
  | [] => []
  | (k, v) :: fs =>
    match stringifyVal v with
    | none => stringifyFields fs
    | some s => (quoteJStr k ++ ':' :: s) :: stringifyFields fs

end

/-- Reads a leading run of decimal digits as a number token. -/
def parseNatTok (s : JStr) : Option (Nat × JStr) :=
  let ds := s.takeWhile Char.isDigit
  if ds.isEmpty then none else some (digitsToNat ds, s.dropWhile Char.isDigit)

/-- Parses the body of a JSON string literal after the opening quote,
returning the decoded characters and the input after the closing quote. -/
def parseStrBody : JStr → Option (JStr × JStr)
  | [] => none
  | c :: cs =>
    if c = '"' then some ([], cs)
    else if c = '\\' then
      match cs with
      | [] => none
      | e :: cs2 =>
        if e = '"' then (parseStrBody cs2).map (fun p => ('"' :: p.1, p.2))
        else if e = '\\' then (parseStrBody cs2).map (fun p => ('\\' :: p.1, p.2))
        else if e = '/' then (parseStrBody cs2).map (fun p => ('/' :: p.1, p.2))
        else if e = 'b' then (parseStrBody cs2).map (fun p => ('\x08' :: p.1, p.2))
        else if e = 'f' then (parseStrBody cs2).map (fun p => ('\x0c' :: p.1, p.2))
        else if e = 'n' then (parseStrBody cs2).map (fun p => ('\n' :: p.1, p.2))
        else if e = 'r' then (parseStrBody cs2).map (fun p => ('\r' :: p.1, p.2))
        else if e = 't' then (parseStrBody cs2).map (fun p => ('\t' :: p.1, p.2))
        else if e = 'u' then
          match cs2 with
          | h1 :: h2 :: h3 :: h4 :: cs3 =>
            match hexVal h1, hexVal h2, hexVal h3, hexVal h4 with
            | some a, some b, some c2, some d =>
              let n := ((a * 16 + b) * 16 + c2) * 16 + d
              if _h : n.isValidChar then
                (parseStrBody cs3).map (fun p => (Char.ofNat n :: p.1, p.2))
              else none
            | _, _, _, _ => none
          | _ => none
        else none
    else (parseStrBody cs).map (fun p => (c :: p.1, p.2))

/-- One fuel level of the JSON recursive-descent parser: the value parser,
the array-items parser (after `[` when the array is nonempty), and the
object-fields parser (after the opening brace when the object is
nonempty).  Each parser consumes at least one character before recursing,
so fuel `length + 1` suffices. -/
def jsonParsers :
    Nat →
      ((JStr → Option (JVal × JStr)) ×
        (JStr → Option (List JVal × JStr)) ×
        (JStr → Option (List (JStr × JVal) × JStr)))
  | 0 => (fun _ => none, fun _ => none, fun _ => none)
  | fuel + 1 =>
    let prev := jsonParsers fuel
    let pv : JStr → Option (JVal × JStr) := fun s =>
      match s with
      | [] => none
      | c :: cs =>
        if c = '"' then
          match parseStrBody cs with
          | some (t, r) => some (.str t, r)
          | none => none
        else if c = '[' then
          if cs.headD ' ' = ']' then some (.arr [], cs.tail)
          else
            match prev.2.1 cs with
            | some (xs, r) => some (.arr xs, r)
            | none => none
        else if c = '\x7b' then
          if cs.headD ' ' = '\x7d' then some (.obj [], cs.tail)
          else
            match prev.2.2 cs with
            | some (fs, r) => some (.obj fs, r)
            | none => none
        else if c = 't' then
          match cs with
          | 'r' :: 'u' :: 'e' :: r => some (.bool true, r)
          | _ => none
        else if c = 'f' then
          match cs with
          | 'a' :: 'l' :: 's' :: 'e' :: r => some (.bool false, r)
          | _ => none
        else if c = 'n' then
          match cs with
          | 'u' :: 'l' :: 'l' :: r => some (.null, r)
          | _ => none
        else if c = '-' then
          match parseNatTok cs with
          | some (n, r) => some (.num (-(n : Int)), r)
          | none => none
        else if c.isDigit then
          match parseNatTok (c :: cs) with
          | some (n, r) => some (.num (n : Int), r)
          | none => none
        else none
    let pa : JStr → Option (List JVal × JStr) := fun s =>
      match pv s with
      | some (x, r) =>
        if r.headD ' ' = ',' then
          match prev.2.1 r.tail with
          | some (xs, r3) => some (x :: xs, r3)
          | none => none
        else if r.headD ' ' = ']' then some ([x], r.tail)
        else none
      | none => none
    let po : JStr → Option (List (JStr × JVal) × JStr) := fun s =>
      match s with
      | [] => none
      | c :: cs =>
        if c = '"' then
          match parseStrBody cs with
          | some (k, r) =>
            if r.headD ' ' = ':' then
              match pv r.tail with
              | some (v, r3) =>
                if r3.headD ' ' = ',' then
                  match prev.2.2 r3.tail with
                  | some (fs, r5) => some ((k, v) :: fs, r5)
                  | none => none
                else if r3.headD ' ' = '\x7d' then some ([(k, v)], r3.tail)
                else none
              | none => none
            else none
          | none => none
        else none
    (pv, pa, po)

/-- Model of `JSON.parse` (throwing is `none`): the whole input must parse
as a single JSON value. -/
def jsonParse (s : JStr) : Option JVal :=
  match (jsonParsers (s.length + 1)).1 s with
  | some (v, []) => some v
  | _ => none

example : stringifyVal (.arr [.null, .bool true, .num (-12)]) = some (js "[null,true,-12]") := by rfl
example : stringifyVal (.obj [(js "a", .num 1), (js "b", .undef)]) = some (js "\x7b\"a\":1\x7d") := by rfl
example : jsonParse (js "[null,true,-12]") =
    some (.arr [.null, .bool true, .num (-12)]) := by rfl
example : jsonParse (js "\x7b\"a\":1,\"b\":[\"x\"]\x7d") =
    some (.obj [(js "a", .num 1), (js "b", .arr [.str (js "x")])]) := by rfl
example : jsonParse (js "x5") = none := by rfl
example : jsonParse (js "5x") = none := by rfl
example : jsonParse (js "9001") = some (.num 9001) := by rfl

/-! ## Model of the JS builtins `encodeURI` and `decodeURI`

`_chunkString` encodes with `encodeURI` so every character of the encoded
string is one ASCII code unit (one byte); `get` decodes with `decodeURI`
after reassembly. -/

/-- Code points `encodeURI` leaves unescaped: `uriAlpha`, digits, `uriMark`
(`- _ . ! ~ * ' ( )`), `uriReserved` (`; / ? : @ & = + $ ,`) and `#`. -/
def uriAllowedCode (n : Nat) : Bool :=
  (65 ≤ n && n ≤ 90) || (97 ≤ n && n ≤ 122) || (48 ≤ n && n ≤ 57) ||
    [45, 95, 46, 33, 126, 42, 39, 40, 41, 59, 47, 63, 58, 64, 38, 61, 43, 36, 44, 35].contains n

/-- Code points whose `%XX` escapes `decodeURI` leaves encoded
(`uriReserved` plus `#`). -/
def uriReservedCode (n : Nat) : Bool :=
  [59, 47, 63, 58, 64, 38, 61, 43, 36, 44, 35].contains n

/-- UTF-8 bytes of one character. -/
def utf8Bytes (c : Char) : List Nat :=
  let n := c.toNat
  if n < 0x80 then [n]
  else if n < 0x800 then [0xC0 + n / 64, 0x80 + n % 64]
  else if n < 0x10000 then [0xE0 + n / 4096, 0x80 + n / 64 % 64, 0x80 + n % 64]
  else [0xF0 + n / 262144, 0x80 + n / 4096 % 64, 0x80 + n / 64 % 64, 0x80 + n % 64]

/-- `%XX` escape of one byte (uppercase hex, as `encodeURI` emits). -/
def byteEscape (b : Nat) : JStr := ['%', hexDigitUpper (b / 16), hexDigitUpper (b % 16)]

/-- `encodeURI` on one character. -/
def encodeURIChar (c : Char) : JStr :=
  if uriAllowedCode c.toNat then [c] else (utf8Bytes c).flatMap byteEscape

/-- Model of `encodeURI`. -/
def encodeURI (s : JStr) : JStr := s.flatMap encodeURIChar

/-- Reads one `%XX` escape as a byte. -/
def readByte : JStr → Option (Nat × JStr)
  | c :: h1 :: h2 :: r =>
    if c = '%' then
      match hexVal h1, hexVal h2 with
      | some a1, some a2 => some (a1 * 16 + a2, r)
      | _, _ => none
    else none
  | _ => none

/-- Fuel-driven decoder loop of `decodeURI`: plain characters pass through,
`%XX` escapes of reserved characters stay encoded, other escapes are
decoded as UTF-8 sequences; malformed input fails (JS throws `URIError`). -/
def decodeURIAux : Nat → JStr → Option JStr
  | 0, _ => none
  | _ + 1, [] => some []
  | fuel + 1, c :: cs =>
    if c = '%' then
      match cs with
      | h1 :: h2 :: r =>
        match hexVal h1, hexVal h2 with
        | some a1, some a2 =>
          let b := a1 * 16 + a2
          if b < 0x80 then
            if uriReservedCode b then
              (decodeURIAux fuel r).map (fun t => '%' :: h1 :: h2 :: t)
            else
              (decodeURIAux fuel r).map (fun t => Char.ofNat b :: t)
          else if 0xC0 ≤ b ∧ b < 0xE0 then
            match readByte r with
            | some (b2, r2) =>
              if 0x80 ≤ b2 ∧ b2 < 0xC0 then
                let n := (b - 0xC0) * 64 + (b2 - 0x80)
                if _h : n.isValidChar then
                  (decodeURIAux fuel r2).map (fun t => Char.ofNat n :: t)
                else none
              else none
            | none => none
          else if 0xE0 ≤ b ∧ b < 0xF0 then
            match readByte r with
            | some (b2, r2) =>
              match readByte r2 with
              | some (b3, r3) =>
                if (0x80 ≤ b2 ∧ b2 < 0xC0) ∧ (0x80 ≤ b3 ∧ b3 < 0xC0) then
                  let n := (b - 0xE0) * 4096 + (b2 - 0x80) * 64 + (b3 - 0x80)
                  if _h : n.isValidChar then
                    (decodeURIAux fuel r3).map (fun t => Char.ofNat n :: t)
                  else none
                else none
              | none => none
            | none => none
          else if 0xF0 ≤ b ∧ b < 0xF8 then
            match readByte r with
            | some (b2, r2) =>
              match readByte r2 with
              | some (b3, r3) =>
                match readByte r3 with
                | some (b4, r4) =>
                  if (0x80 ≤ b2 ∧ b2 < 0xC0) ∧ (0x80 ≤ b3 ∧ b3 < 0xC0) ∧
                      (0x80 ≤ b4 ∧ b4 < 0xC0) then
                    let n := (b - 0xF0) * 262144 + (b2 - 0x80) * 4096 +
                      (b3 - 0x80) * 64 + (b4 - 0x80)
                    if _h : n.isValidChar then
                      (decodeURIAux fuel r4).map (fun t => Char.ofNat n :: t)
                    else none
                  else none
                | none => none
              | none => none
            | none => none
          else none
        | _, _ => none
      | _ => none
    else (decodeURIAux fuel cs).map (fun t => c :: t)

/-- Model of `decodeURI` (throwing `URIError` is `none`). -/
def decodeURI (s : JStr) : Option JStr := decodeURIAux (s.length + 1) s

example : encodeURI (js "a b") = js "a%20b" := by rfl
example : decodeURI (js "a%20b") = some (js "a b") := by rfl
example : encodeURI (js "é") = js "%C3%A9" := by rfl
example : decodeURI (js "%C3%A9") = some (js "é") := by rfl
example : decodeURI (js "x5") = some (js "x5") := by rfl
example : decodeURI (js "%") = none := by rfl

/-! ## The engine: the namespaced `DynamicProperty` class
(src/DynamicProperty.ts).  The static mutable defaults are modelled at
their initial values: `DynamicProperty.namespace = undefined`,
`DynamicProperty.serialize = (value) => JSON.stringify(value)`,
`DynamicProperty.deserialize = JSON.parse on strings, identity otherwise`;
per-call options carry the overrides. -/

/-- Errors an engine call can throw. -/
inductive JsErr where
  /-- the `Error` thrown by `set` when the serializer result is invalid -/
  | invalidSerialization
  /-- `URIError` from `decodeURI` on malformed input -/
  | uriError
  /-- `SyntaxError` from `JSON.parse` in the default deserializer -/
  | jsonSyntax
  /-- `TypeError` from `isSerializedValue` reading `null.x` -/
  | typeError
deriving Repr, DecidableEq

/-- `isSerializedValue` as `set` evaluates it.  `typeof null === "object"`
in JS, so on `null` the guard reaches `typeof x.x === "number"` and
reading `null.x` throws a `TypeError`; on every other value the guard
returns the boolean `isSerializedValue`. -/
def isSerializedValueE : JVal → Except JsErr Bool
  | .null => .error .typeError
  | v => .ok (isSerializedValue v)

/-- Whether a JS value is the delete sentinel `undefined`. -/
def JVal.isUndef : JVal → Bool
  | .undef => true
  | _ => false

namespace DynamicProperty

/-- `MAX_CHUNK_SIZE` — dynamic property max size. -/
def MAX_CHUNK_SIZE : Nat := 32767

/-- The chunk separator character (named `CHUNK_ID_` + `PREFIX` in the
source, value `"_"`). -/
def CHUNK_SEP : Char := '_'

/-- Pluggable serializer.  The declared TS result type is
`SerializedValue`, but nothing enforces it at runtime — which is exactly
what `set`'s `isSerializedValue` guard checks — so the model lets a
serializer return any JS value. -/
def Serializer := JVal → JStr → JVal

/-- Pluggable deserializer; it may throw (as `JSON.parse` does). -/
def Deserializer := Option SVal → JStr → Except JsErr JVal

/-- The default serializer `(value) => JSON.stringify(value)`. -/
def defaultSerialize : Serializer := fun v _ =>
  match stringifyVal v with
  | none => .undef
  | some s => .str s

/-- The default deserializer: `JSON.parse` on strings, identity otherwise. -/
def defaultDeserialize : Deserializer := fun v _ =>
  match v with
  | none => .ok .undef
  | some (.str s) =>
    match jsonParse s with
    | some j => .ok j
    | none => .error .jsonSyntax
  | some sv => .ok (svalToJVal sv)

/-- Per-call options of `get` (`GetOptions`): a namespace and an optional
deserializer override.  The field `ns` models the `namespace` option
(`namespace` is a Lean keyword). -/
structure GetOpts where
  ns : Option JStr := none
  deserialize : Option Deserializer := none

/-- Per-call options of `set` (`SetOptions`). -/
structure SetOpts where
  ns : Option JStr := none
  serialize : Option Serializer := none

/-- `_getNamespacedId` (static default namespace at its initial
`undefined`). -/
def getNamespacedId (ns : Option JStr) (id : JStr) : JStr :=
  match ns with
  | none => id
  | some n => n ++ ':' :: id

/-- The test of the regex `^<escaped id><sep>\d+$` that
`_getChunkPropertyIds` builds with the `regex` template helper
(src/regex.ts).  The interpolated logical id and separator are
regex-escaped by the helper, so the regex matches exactly the literal
strings `fullId ++ "_" ++ ds` with `ds` a nonempty digit string — which is
what this function tests. -/
def matchesChunkPattern (fullId : JStr) (propId : JStr) : Bool :=
  (fullId ++ [CHUNK_SEP]).isPrefixOf propId &&
    (let suffix := propId.drop (fullId.length + 1)
     !suffix.isEmpty && suffix.all Char.isDigit)

/-- `_getChunkId`: the integer parsed after the last separator, if any. -/
def getChunkId (propId : JStr) : Option Nat :=
  match lastIndexOf CHUNK_SEP propId with
  | none => none
  | some i => jsParseInt (propId.drop (i + 1))

/-- The sort key `_getChunkId(a)!` used by `_getChunkPropertyIds`. -/
def chunkIdNum (propId : JStr) : Nat := (getChunkId propId).getD 0

/-- `_getChunkPropertyIds`: the host keys matching the chunk pattern,
sorted ascending by parsed chunk index.  JS `Array.prototype.sort` is
stable, hence the insertion sort. -/
def getChunkPropertyIds (o : Owner) (fullId : JStr) : List JStr :=
  List.insertionSort (fun a b => chunkIdNum a ≤ chunkIdNum b)
    (o.propIds.filter (matchesChunkPattern fullId))

/-- `_getChunkPropertyId`. -/
def getChunkPropertyId (fullId : JStr) (chunkId : Nat) : JStr :=
  fullId ++ CHUNK_SEP :: natToStr chunkId

/-- `_setChunk`. -/
def setChunk (o : Owner) (fullId : JStr) (chunkId : Nat) (chunk : Option SVal) : Owner :=
  o.setProp (getChunkPropertyId fullId chunkId) chunk

/-- The window loop of `_chunkString` (fuel-driven; each pass consumes
`maxSize ≥ 1` characters, so fuel `length` suffices). -/
def chunkWindows (maxSize : Nat) : Nat → JStr → List JStr
  | 0, _ => []
  | _ + 1, [] => []
  | fuel + 1, s => s.take maxSize :: chunkWindows maxSize fuel (s.drop maxSize)

/-- `_chunkString`: encode with `encodeURI`, then yield fixed windows of
`MAX_CHUNK_SIZE` code units. -/
def chunkString (str : JStr) : List JStr :=
  let encoded := encodeURI str
  chunkWindows MAX_CHUNK_SIZE encoded.length encoded

/-- `get`. -/
def get (o : Owner) (id : JStr) (opts : GetOpts) : Except JsErr JVal :=
  let fullId := getNamespacedId opts.ns id
  let propIds := getChunkPropertyIds o fullId
  if propIds.isEmpty then .ok .undef
  else
    let value : Option SVal :=
      if propIds.length == 1 then o.getProp (propIds.headD [])
      else some (.str (propIds.foldl (fun acc pid => acc ++ jsStringCoerce (o.getProp pid)) []))
    match value with
    | some (.str sv) =>
      match decodeURI sv with
      | some d => (opts.deserialize.getD defaultDeserialize) (some (.str d)) fullId
      | none => .error .uriError
    | v => (opts.deserialize.getD defaultDeserialize) v fullId

/-- `exists` (a Lean keyword, hence `existsProp`). -/
def existsProp (o : Owner) (id : JStr) (ns : Option JStr) : Bool :=
  !(getChunkPropertyIds o (getNamespacedId ns id)).isEmpty

/-- `delete`. -/
def deleteProp (o : Owner) (id : JStr) (ns : Option JStr) : Owner :=
  (getChunkPropertyIds o (getNamespacedId ns id)).foldl
    (fun acc pid => acc.setProp pid none) o

/-- The chunk-writing loop of `set`'s string branch (`i` is the running
`chunkId` counter). -/
def writeChunks (o : Owner) (fullId : JStr) (i : Nat) : List JStr → Owner
  | [] => o
  | c :: cs => writeChunks (setChunk o fullId i (some (.str c))) fullId (i + 1) cs

/-- The cleanup loop of `set`: deletes `prev[i]` for positions `i ≥ n` in
the previously matching (sorted) chunk-key list. -/
def deleteFrom (o : Owner) (prev : List JStr) (n : Nat) : Owner :=
  (prev.drop n).foldl (fun acc pid => acc.setProp pid none) o

/-- `set`: returns the host state afterwards together with the thrown
error, if any.  As in the source, the serialization guard runs before any
chunk is written or deleted, so a throw leaves the state untouched; the
guard itself can throw (a `TypeError` on a `null` serializer result), and
a `false` guard value raises `InvalidSerializationResult`. -/
def set (o : Owner) (id : JStr) (value : JVal) (opts : SetOpts) : Owner × Option JsErr :=
  let fullId := getNamespacedId opts.ns id
  if value.isUndef then (deleteProp o id opts.ns, none)
  else
    let serialized := (opts.serialize.getD defaultSerialize) value fullId
    match isSerializedValueE serialized with
    | .error e => (o, some e)
    | .ok false => (o, some .invalidSerialization)
    | .ok true =>
      let prev := getChunkPropertyIds o fullId
      match serialized with
      | .str s =>
        let chunks := chunkString s
        let o1 := writeChunks o fullId 0 chunks
        (deleteFrom o1 prev chunks.length, none)
      | sv =>
        let o1 := setChunk o fullId 0 (jvalToHost sv)
        (deleteFrom o1 prev 1, none)

/-- The generator `ids`, as the list of ids it yields; `seen` is the
deduplication set. -/
def idsAux (ns : Option JStr) (seen : List JStr) : List JStr → List JStr
  | [] => []
  | propId :: rest =>
    match lastIndexOf CHUNK_SEP propId with
    | none => idsAux ns seen rest
    | some i =>
      let id := propId.take i
      if (match ns with
          | some n => !(n ++ [':']).isPrefixOf id
          | none => false) then idsAux ns seen rest
      else if seen.contains id then idsAux ns seen rest
      else id :: idsAux ns (id :: seen) rest

/-- `ids` (static default namespace at its initial `undefined`). -/
def ids (o : Owner) (ns : Option JStr) : List JStr := idsAux ns [] o.propIds

/-- `values`: maps `ids()` through `get` with the same options. -/
def values (o : Owner) (opts : GetOpts) : List (Except JsErr JVal) :=
  (ids o opts.ns).map (fun id => get o id opts)

/-- `entries`: maps `ids()` through `(id, get(id))` with the same options. -/
def entries (o : Owner) (opts : GetOpts) : List (JStr × Except JsErr JVal) :=
  (ids o opts.ns).map (fun id => (id, get o id opts))

end DynamicProperty

/-! ## Facts about decimal digit strings -/

/-- Whether a string does not continue a number token (used to state the
parser round-trip: the text following a rendered number never starts with
a digit). -/
def restSafe : JStr → Bool
  | [] => true
  | c :: _ => !c.isDigit

theorem digitChar_isDigit : ∀ d < 10, (digitChar d).isDigit = true := by decide

theorem digitChar_toNat : ∀ d < 10, (digitChar d).toNat = 48 + d := by decide

theorem natDigitsAux_ne_nil : ∀ fuel n, n < fuel → natDigitsAux fuel n ≠ [] := by
  intro fuel
  induction fuel with
  | zero => intro n h; omega
  | succ f ih =>
    intro n _
    unfold natDigitsAux
    split
    · simp
    · simp

theorem natDigitsAux_all_digit : ∀ fuel n, (natDigitsAux fuel n).all Char.isDigit = true := by
  intro fuel
  induction fuel with
  | zero => intro n; rfl
  | succ f ih =>
    intro n
    unfold natDigitsAux
    split
    · next h => simp [digitChar_isDigit n h]
    · next h =>
      simp only [List.all_append, Bool.and_eq_true]
      exact ⟨ih (n / 10), by simp [digitChar_isDigit (n % 10) (by omega)]⟩

theorem digitsToNat_append_singleton (l : JStr) (c : Char) :
    digitsToNat (l ++ [c]) = 10 * digitsToNat l + (c.toNat - 48) := by
  unfold digitsToNat
  rw [List.foldl_append]
  simp [Nat.mul_comm]

theorem digitsToNat_natDigitsAux : ∀ fuel n, n < fuel → digitsToNat (natDigitsAux fuel n) = n := by
  intro fuel
  induction fuel with
  | zero => intro n h; omega
  | succ f ih =>
    intro n h
    unfold natDigitsAux
    split
    · next hlt => simp [digitsToNat, digitChar_toNat n hlt]
    · next hge =>
      rw [digitsToNat_append_singleton, ih (n / 10) (by omega),
        digitChar_toNat (n % 10) (by omega)]
      omega

theorem natToStr_ne_nil (n : Nat) : natToStr n ≠ [] :=
  natDigitsAux_ne_nil (n + 1) n (by omega)

theorem natToStr_all_digit (n : Nat) : (natToStr n).all Char.isDigit = true :=
  natDigitsAux_all_digit (n + 1) n

theorem digitsToNat_natToStr (n : Nat) : digitsToNat (natToStr n) = n :=
  digitsToNat_natDigitsAux (n + 1) n (by omega)

theorem takeWhile_append_of_all {p : Char → Bool} :
    ∀ {l : JStr} (r : JStr), l.all p = true → (l ++ r).takeWhile p = l ++ r.takeWhile p := by
  intro l
  induction l with
  | nil => intro r _; rfl
  | cons x xs ih =>
    intro r h
    simp only [List.all_cons, Bool.and_eq_true] at h
    simp [List.takeWhile_cons, h.1, ih r h.2]

theorem dropWhile_append_of_all {p : Char → Bool} :
    ∀ {l : JStr} (r : JStr), l.all p = true → (l ++ r).dropWhile p = r.dropWhile p := by
  intro l
  induction l with
  | nil => intro r _; rfl
  | cons x xs ih =>
    intro r h
    simp only [List.all_cons, Bool.and_eq_true] at h
    simp [List.dropWhile_cons, h.1, ih r h.2]

theorem takeWhile_restSafe (r : JStr) (h : restSafe r = true) :
    r.takeWhile Char.isDigit = [] := by
  cases r with
  | nil => rfl
  | cons c cs =>
    simp only [restSafe, Bool.not_eq_true'] at h
    simp [List.takeWhile_cons, h]

theorem dropWhile_restSafe (r : JStr) (h : restSafe r = true) :
    r.dropWhile Char.isDigit = r := by
  cases r with
  | nil => rfl
  | cons c cs =>
    simp only [restSafe, Bool.not_eq_true'] at h
    simp [List.dropWhile_cons, h]

theorem parseNatTok_natToStr (n : Nat) (rest : JStr) (h : restSafe rest = true) :
    parseNatTok (natToStr n ++ rest) = some (n, rest) := by
  unfold parseNatTok
  rw [takeWhile_append_of_all rest (natToStr_all_digit n),
    dropWhile_append_of_all rest (natToStr_all_digit n),
    takeWhile_restSafe rest h, dropWhile_restSafe rest h, List.append_nil]
  simp [natToStr_ne_nil n, List.isEmpty_iff, digitsToNat_natToStr]

theorem jsParseInt_natToStr (n : Nat) : jsParseInt (natToStr n) = some n := by
  unfold jsParseInt
  rw [show (natToStr n).takeWhile Char.isDigit = natToStr n from by
    simpa using takeWhile_append_of_all [] (natToStr_all_digit n)]
  simp [natToStr_ne_nil n, List.isEmpty_iff, digitsToNat_natToStr]

theorem natToStr_injective {m n : Nat} (h : natToStr m = natToStr n) : m = n := by
  have := jsParseInt_natToStr m
  rw [h, jsParseInt_natToStr n] at this
  exact (Option.some_injective _ this).symm

theorem not_isDigit_underscore : ('_').isDigit = false := by decide

theorem mem_natToStr_isDigit {c : Char} {n : Nat} (h : c ∈ natToStr n) : c.isDigit = true := by
  have := natToStr_all_digit n
  rw [List.all_eq_true] at this
  exact this c h

/-! ## Facts about `lastIndexOf` -/

theorem lastIndexOf_eq_none {c : Char} : ∀ {s : JStr}, c ∉ s → lastIndexOf c s = none := by
  intro s
  induction s with
  | nil => intro _; rfl
  | cons x xs ih =>
    intro h
    rw [List.mem_cons, not_or] at h
    unfold lastIndexOf
    rw [ih h.2]
    simp [Ne.symm h.1]

theorem lastIndexOf_isSome_of_mem {c : Char} :
    ∀ {s : JStr}, c ∈ s → (lastIndexOf c s).isSome = true := by
  intro s
  induction s with
  | nil => intro h; cases h
  | cons x xs ih =>
    intro h
    unfold lastIndexOf
    rcases List.mem_cons.mp h with h1 | h2
    · cases hl : lastIndexOf c xs <;> simp [h1.symm]
    · have := ih h2
      cases hl : lastIndexOf c xs
      · rw [hl] at this; simp at this
      · simp

theorem lastIndexOf_append_cons (c : Char) :
    ∀ (a : JStr) (ds : JStr), c ∉ ds → lastIndexOf c (a ++ c :: ds) = some a.length := by
  intro a
  induction a with
  | nil =>
    intro ds h
    show lastIndexOf c (c :: ds) = some 0
    unfold lastIndexOf
    rw [lastIndexOf_eq_none h]
    simp
  | cons x xs ih =>
    intro ds h
    show lastIndexOf c (x :: (xs ++ c :: ds)) = some (xs.length + 1)
    unfold lastIndexOf
    rw [ih ds h]

/-! ## Facts about chunk keys and the chunk-key pattern -/

namespace DynamicProperty

theorem sep_not_mem_digits {ds : JStr} (h : ds.all Char.isDigit = true) : CHUNK_SEP ∉ ds := by
  intro hmem
  rw [List.all_eq_true] at h
  have := h CHUNK_SEP hmem
  simp [CHUNK_SEP] at this

theorem drop_append_cons (fullId ds : JStr) :
    (fullId ++ CHUNK_SEP :: ds).drop (fullId.length + 1) = ds := by
  have : fullId.length + 1 = fullId.length + 1 + 0 := by omega
  rw [show (CHUNK_SEP :: ds) = [CHUNK_SEP] ++ ds from rfl, ← List.append_assoc]
  have hlen : fullId.length + 1 = (fullId ++ [CHUNK_SEP]).length + 0 := by simp
  rw [hlen, List.drop_append 0]
  rfl

theorem matchesChunkPattern_decomp (fullId ds : JStr) (hne : ds ≠ [])
    (hdig : ds.all Char.isDigit = true) :
    matchesChunkPattern fullId (fullId ++ CHUNK_SEP :: ds) = true := by
  unfold matchesChunkPattern
  rw [Bool.and_eq_true]
  constructor
  · rw [List.isPrefixOf_iff_prefix]
    rw [show (fullId ++ CHUNK_SEP :: ds) = (fullId ++ [CHUNK_SEP]) ++ ds by simp]
    exact List.prefix_append _ _
  · simp only [drop_append_cons]
    simp [hne, hdig, List.isEmpty_iff]

theorem matchesChunkPattern_elim {fullId p : JStr} (h : matchesChunkPattern fullId p = true) :
    ∃ ds, p = fullId ++ CHUNK_SEP :: ds ∧ ds ≠ [] ∧ ds.all Char.isDigit = true := by
  unfold matchesChunkPattern at h
  rw [Bool.and_eq_true] at h
  obtain ⟨h1, h2⟩ := h
  rw [List.isPrefixOf_iff_prefix] at h1
  obtain ⟨t, ht⟩ := h1
  refine ⟨t, ?_, ?_, ?_⟩
  · rw [← ht]; simp
  · have : p.drop (fullId.length + 1) = t := by
      rw [← ht, show (fullId ++ [CHUNK_SEP]) ++ t = fullId ++ CHUNK_SEP :: t by simp,
        drop_append_cons]
    rw [this] at h2
    simp only [Bool.and_eq_true, Bool.not_eq_true'] at h2
    simpa [List.isEmpty_iff] using h2.1
  · have : p.drop (fullId.length + 1) = t := by
      rw [← ht, show (fullId ++ [CHUNK_SEP]) ++ t = fullId ++ CHUNK_SEP :: t by simp,
        drop_append_cons]
    rw [this] at h2
    simp only [Bool.and_eq_true] at h2
    exact h2.2

theorem getChunkPropertyId_eq (fullId : JStr) (k : Nat) :
    getChunkPropertyId fullId k = fullId ++ CHUNK_SEP :: natToStr k := rfl

theorem matchesChunkPattern_chunkKey (fullId : JStr) (k : Nat) :
    matchesChunkPattern fullId (getChunkPropertyId fullId k) = true :=
  matchesChunkPattern_decomp fullId (natToStr k) (natToStr_ne_nil k) (natToStr_all_digit k)

theorem getChunkId_decomp (fullId ds : JStr) (hne : ds ≠ [])
    (hdig : ds.all Char.isDigit = true) :
    getChunkId (fullId ++ CHUNK_SEP :: ds) = some (digitsToNat ds) := by
  unfold getChunkId
  rw [lastIndexOf_append_cons CHUNK_SEP fullId ds (sep_not_mem_digits hdig)]
  show jsParseInt ((fullId ++ CHUNK_SEP :: ds).drop (fullId.length + 1)) = some (digitsToNat ds)
  rw [drop_append_cons]
  unfold jsParseInt
  rw [show ds.takeWhile Char.isDigit = ds from by
    simpa using takeWhile_append_of_all (l := ds) [] hdig]
  simp [hne, List.isEmpty_iff]

theorem getChunkId_chunkKey (fullId : JStr) (k : Nat) :
    getChunkId (getChunkPropertyId fullId k) = some k := by
  rw [getChunkPropertyId_eq,
    getChunkId_decomp fullId (natToStr k) (natToStr_ne_nil k) (natToStr_all_digit k),
    digitsToNat_natToStr]

theorem chunkIdNum_chunkKey (fullId : JStr) (k : Nat) :
    chunkIdNum (getChunkPropertyId fullId k) = k := by
  unfold chunkIdNum
  rw [getChunkId_chunkKey]
  rfl

theorem getChunkPropertyId_inj {fullId : JStr} {j k : Nat}
    (h : getChunkPropertyId fullId j = getChunkPropertyId fullId k) : j = k := by
  have hj := getChunkId_chunkKey fullId j
  rw [h, getChunkId_chunkKey fullId k] at hj
  exact (Option.some_injective _ hj).symm

/-! ## The sort in `_getChunkPropertyIds` -/

instance : IsTotal JStr (fun a b => chunkIdNum a ≤ chunkIdNum b) :=
  ⟨fun a b => Nat.le_total _ _⟩

instance : IsTrans JStr (fun a b => chunkIdNum a ≤ chunkIdNum b) :=
  ⟨fun _ _ _ => Nat.le_trans⟩

theorem getChunkPropertyIds_perm (o : Owner) (fullId : JStr) :
    (getChunkPropertyIds o fullId).Perm (o.propIds.filter (matchesChunkPattern fullId)) :=
  List.perm_insertionSort _ _

theorem getChunkPropertyIds_sorted (o : Owner) (fullId : JStr) :
    (getChunkPropertyIds o fullId).Pairwise (fun a b => chunkIdNum a ≤ chunkIdNum b) :=
  List.sorted_insertionSort _ _

/-- The canonical chunk-key run `fullId_0 .. fullId_(n-1)` (a proof
artifact, not a source function). -/
def chunkRun (fullId : JStr) (n : Nat) : List JStr :=
  (List.range n).map (getChunkPropertyId fullId)

theorem mem_chunkRun {fullId : JStr} {n : Nat} {k : JStr} :
    k ∈ chunkRun fullId n ↔ ∃ j < n, k = getChunkPropertyId fullId j := by
  unfold chunkRun
  simp only [List.mem_map, List.mem_range]
  constructor
  · rintro ⟨j, hj, rfl⟩; exact ⟨j, hj, rfl⟩
  · rintro ⟨j, hj, rfl⟩; exact ⟨j, hj, rfl⟩

theorem chunkRun_nodup (fullId : JStr) (n : Nat) : (chunkRun fullId n).Nodup :=
  (List.nodup_range n).map (fun _ _ h => getChunkPropertyId_inj h)

theorem chunkRun_sorted (fullId : JStr) (n : Nat) :
    (chunkRun fullId n).Pairwise (fun a b => chunkIdNum a ≤ chunkIdNum b) := by
  unfold chunkRun
  rw [List.pairwise_map]
  exact (List.pairwise_lt_range n).imp
    (fun h => by simp [chunkIdNum_chunkKey]; omega)

theorem chunkRun_length (fullId : JStr) (n : Nat) : (chunkRun fullId n).length = n := by
  simp [chunkRun]

/-- If the matching host keys are (as a multiset) the canonical run
`0..n-1`, the sorted chunk-key list is exactly that run in order. -/
theorem getChunkPropertyIds_eq_run {o : Owner} {fullId : JStr} {n : Nat}
    (hperm : (o.propIds.filter (matchesChunkPattern fullId)).Perm (chunkRun fullId n)) :
    getChunkPropertyIds o fullId = chunkRun fullId n := by
  have hp : (getChunkPropertyIds o fullId).Perm (chunkRun fullId n) :=
    (getChunkPropertyIds_perm o fullId).trans hperm
  refine List.Perm.eq_of_sorted ?_ (getChunkPropertyIds_sorted o fullId)
    (chunkRun_sorted fullId n) hp
  intro a b ha hb hab hba
  have ha' : a ∈ chunkRun fullId n := hp.mem_iff.mp ha
  obtain ⟨i, _, rfl⟩ := mem_chunkRun.mp ha'
  obtain ⟨j, _, rfl⟩ := mem_chunkRun.mp hb
  rw [chunkIdNum_chunkKey, chunkIdNum_chunkKey] at hab hba
  have : i = j := Nat.le_antisymm hab hba
  rw [this]

theorem mem_drop_chunkRun {fullId : JStr} {m n : Nat} {k : JStr} :
    k ∈ (chunkRun fullId m).drop n ↔
      ∃ j, n ≤ j ∧ j < m ∧ k = getChunkPropertyId fullId j := by
  constructor
  · intro h
    rw [List.mem_iff_getElem] at h
    obtain ⟨i, hi, hk⟩ := h
    rw [List.length_drop, chunkRun_length] at hi
    rw [List.getElem_drop] at hk
    refine ⟨n + i, by omega, by omega, ?_⟩
    rw [← hk]
    unfold chunkRun
    simp
  · rintro ⟨j, h1, h2, rfl⟩
    rw [List.mem_iff_getElem]
    refine ⟨j - n, ?_, ?_⟩
    · rw [List.length_drop, chunkRun_length]; omega
    · rw [List.getElem_drop]
      unfold chunkRun
      simp only [List.getElem_map, List.getElem_range]
      rw [show n + (j - n) = j from by omega]

end DynamicProperty

/-! ## Facts about the host store -/

theorem Owner.mem_propIds {o : Owner} {k : JStr} :
    k ∈ o.propIds ↔ ∃ p ∈ o.props, p.1 = k := by
  unfold Owner.propIds
  exact List.mem_map

theorem Owner.any_key_iff {o : Owner} {k : JStr} :
    (o.props.any (fun p => p.1 = k)) = true ↔ k ∈ o.propIds := by
  rw [List.any_eq_true, Owner.mem_propIds]
  constructor
  · rintro ⟨p, hp, h⟩; exact ⟨p, hp, by simpa using h⟩
  · rintro ⟨p, hp, h⟩; exact ⟨p, hp, by simpa using h⟩

theorem Owner.propIds_setProp_some_of_mem {o : Owner} {k : JStr} (v : SVal)
    (h : k ∈ o.propIds) : (o.setProp k (some v)).propIds = o.propIds := by
  show (if (o.props.any fun p => p.1 = k) = true then
      Owner.mk (o.props.map fun p => if p.1 = k then (k, v) else p)
    else Owner.mk (o.props ++ [(k, v)])).propIds = o.propIds
  rw [if_pos (Owner.any_key_iff.mpr h)]
  show (o.props.map fun p => if p.1 = k then (k, v) else p).map (fun p => p.1) = o.propIds
  rw [List.map_map]
  apply List.map_congr_left
  intro p _
  by_cases hp : p.1 = k
  · simp [hp]
  · simp [hp]

theorem Owner.propIds_setProp_some_of_not_mem {o : Owner} {k : JStr} (v : SVal)
    (h : k ∉ o.propIds) : (o.setProp k (some v)).propIds = o.propIds ++ [k] := by
  show (if (o.props.any fun p => p.1 = k) = true then
      Owner.mk (o.props.map fun p => if p.1 = k then (k, v) else p)
    else Owner.mk (o.props ++ [(k, v)])).propIds = o.propIds ++ [k]
  rw [if_neg (fun hc => h (Owner.any_key_iff.mp hc))]
  show (o.props ++ [(k, v)]).map (fun p => p.1) = o.propIds ++ [k]
  simp [Owner.propIds]

theorem Owner.propIds_setProp_none (o : Owner) (k : JStr) :
    (o.setProp k none).propIds = o.propIds.filter (fun x => !(x = k : Bool)) := by
  show (o.props.filter (fun p => ¬ p.1 = k)).map (fun p => p.1) =
    (o.props.map (fun p => p.1)).filter (fun x => !(x = k : Bool))
  induction o.props with
  | nil => rfl
  | cons p ps ih =>
    by_cases hp : p.1 = k
    · rw [List.filter_cons_of_neg (by simpa using hp), List.map_cons,
        List.filter_cons_of_neg (by simpa using hp), ih]
    · rw [List.filter_cons_of_pos (by simpa using hp), List.map_cons, List.map_cons,
        List.filter_cons_of_pos (by simpa using hp), ih]

theorem Owner.mem_propIds_setProp_some {o : Owner} {k k' : JStr} (v : SVal) :
    k' ∈ (o.setProp k (some v)).propIds ↔ k' ∈ o.propIds ∨ k' = k := by
  by_cases h : k ∈ o.propIds
  · rw [Owner.propIds_setProp_some_of_mem v h]
    constructor
    · exact Or.inl
    · rintro (h' | rfl)
      · exact h'
      · exact h
  · rw [Owner.propIds_setProp_some_of_not_mem v h]
    simp

theorem Owner.mem_propIds_setProp_none {o : Owner} {k k' : JStr} :
    k' ∈ (o.setProp k none).propIds ↔ k' ∈ o.propIds ∧ k' ≠ k := by
  rw [Owner.propIds_setProp_none]
  simp [List.mem_filter]

theorem Owner.getProp_eq_none_iff {o : Owner} {k : JStr} :
    o.getProp k = none ↔ k ∉ o.propIds := by
  unfold Owner.getProp
  rw [Owner.mem_propIds]
  cases hf : o.props.find? (fun p => p.1 = k) with
  | none =>
    simp only [true_iff]
    rw [List.find?_eq_none] at hf
    push_neg
    intro p hp
    have := hf p hp
    simpa using this
  | some p =>
    simp only [reduceCtorEq, false_iff, not_not]
    have hm := List.mem_of_find?_eq_some hf
    have hk := List.find?_some hf
    exact ⟨p, hm, by simpa using hk⟩

theorem find?_update_same (props : List (JStr × SVal)) (k : JStr) (sv : SVal)
    (h : ∃ p ∈ props, p.1 = k) :
    (props.map (fun p => if p.1 = k then (k, sv) else p)).find? (fun p => p.1 = k) =
      some (k, sv) := by
  induction props with
  | nil => obtain ⟨p, hp, _⟩ := h; cases hp
  | cons q qs ih =>
    by_cases hq : q.1 = k
    · rw [List.map_cons, if_pos hq, List.find?_cons_of_pos _ (by simp)]
    · rw [List.map_cons, if_neg hq, List.find?_cons_of_neg _ (by simpa using hq)]
      apply ih
      obtain ⟨p, hp, hpk⟩ := h
      rcases List.mem_cons.mp hp with rfl | hmem
      · exact absurd hpk hq
      · exact ⟨p, hmem, hpk⟩

theorem Owner.getProp_setProp_some_same (o : Owner) (k : JStr) (v : SVal) :
    (o.setProp k (some v)).getProp k = some v := by
  show (if (o.props.any fun p => p.1 = k) = true then
      Owner.mk (o.props.map fun p => if p.1 = k then (k, v) else p)
    else Owner.mk (o.props ++ [(k, v)])).getProp k = some v
  by_cases h : (o.props.any (fun p => p.1 = k)) = true
  · rw [if_pos h]
    show Owner.getProp ⟨o.props.map fun p => if p.1 = k then (k, v) else p⟩ k = some v
    unfold Owner.getProp
    rw [List.any_eq_true] at h
    rw [find?_update_same o.props k v (by
      obtain ⟨p, hp, hk⟩ := h
      exact ⟨p, hp, by simpa using hk⟩)]
  · rw [if_neg h]
    show Owner.getProp ⟨o.props ++ [(k, v)]⟩ k = some v
    unfold Owner.getProp
    rw [List.find?_append]
    have : o.props.find? (fun p => p.1 = k) = none := by
      rw [List.find?_eq_none]
      intro p hp
      simp only [decide_eq_true_eq]
      intro hk
      exact h (List.any_eq_true.mpr ⟨p, hp, by simpa using hk⟩)
    rw [this]
    simp

theorem Owner.getProp_setProp_none_same (o : Owner) (k : JStr) :
    (o.setProp k none).getProp k = none := by
  rw [Owner.getProp_eq_none_iff, Owner.mem_propIds_setProp_none]
  simp

theorem find?_filter_ne (props : List (JStr × SVal)) (k k' : JStr) (h : k' ≠ k) :
    (props.filter (fun p => ¬ p.1 = k)).find? (fun p => p.1 = k') =
      props.find? (fun p => p.1 = k') := by
  induction props with
  | nil => rfl
  | cons q qs ih =>
    by_cases hq : q.1 = k
    · rw [List.filter_cons_of_neg (by simpa using hq), ih,
        List.find?_cons_of_neg _ (by simp [hq, Ne.symm h])]
    · rw [List.filter_cons_of_pos (by simpa using hq)]
      by_cases hq' : q.1 = k'
      · rw [List.find?_cons_of_pos _ (by simpa using hq'),
          List.find?_cons_of_pos _ (by simpa using hq')]
      · rw [List.find?_cons_of_neg _ (by simpa using hq'),
          List.find?_cons_of_neg _ (by simpa using hq'), ih]

theorem find?_update_other (props : List (JStr × SVal)) (k k' : JStr) (sv : SVal)
    (h : k' ≠ k) :
    (props.map (fun p => if p.1 = k then (k, sv) else p)).find? (fun p => p.1 = k') =
      props.find? (fun p => p.1 = k') := by
  induction props with
  | nil => rfl
  | cons q qs ih =>
    by_cases hq : q.1 = k
    · rw [List.map_cons, if_pos hq,
        List.find?_cons_of_neg _ (by simp [Ne.symm h]),
        List.find?_cons_of_neg _ (by simp [hq, Ne.symm h]), ih]
    · rw [List.map_cons, if_neg hq]
      by_cases hq' : q.1 = k'
      · rw [List.find?_cons_of_pos _ (by simpa using hq'),
          List.find?_cons_of_pos _ (by simpa using hq')]
      · rw [List.find?_cons_of_neg _ (by simpa using hq'),
          List.find?_cons_of_neg _ (by simpa using hq'), ih]

theorem Owner.getProp_setProp_other (o : Owner) (k k' : JStr) (v : Option SVal)
    (h : k' ≠ k) : (o.setProp k v).getProp k' = o.getProp k' := by
  cases v with
  | none =>
    unfold Owner.setProp
    show Owner.getProp ⟨o.props.filter (fun p => ¬ p.1 = k)⟩ k' = o.getProp k'
    unfold Owner.getProp
    rw [find?_filter_ne o.props k k' h]
  | some sv =>
    show (if (o.props.any fun p => p.1 = k) = true then
        Owner.mk (o.props.map fun p => if p.1 = k then (k, sv) else p)
      else Owner.mk (o.props ++ [(k, sv)])).getProp k' = o.getProp k'
    by_cases hmem : (o.props.any (fun p => p.1 = k)) = true
    · rw [if_pos hmem]
      show Owner.getProp ⟨o.props.map fun p => if p.1 = k then (k, sv) else p⟩ k' =
        o.getProp k'
      unfold Owner.getProp
      rw [find?_update_other o.props k k' sv h]
    · rw [if_neg hmem]
      show Owner.getProp ⟨o.props ++ [(k, sv)]⟩ k' = o.getProp k'
      unfold Owner.getProp
      rw [List.find?_append, show ([(k, sv)].find? (fun p => p.1 = k')) = none from by
        simp [List.find?_cons, Ne.symm h]]
      cases o.props.find? (fun p => p.1 = k') <;> rfl

theorem Owner.WF_setProp (o : Owner) (k : JStr) (v : Option SVal) (h : o.WF) :
    (o.setProp k v).WF := by
  cases v with
  | none =>
    unfold Owner.WF
    rw [Owner.propIds_setProp_none]
    exact h.filter _
  | some sv =>
    by_cases hmem : k ∈ o.propIds
    · unfold Owner.WF
      rw [Owner.propIds_setProp_some_of_mem sv hmem]
      exact h
    · unfold Owner.WF
      rw [Owner.propIds_setProp_some_of_not_mem sv hmem]
      rw [List.nodup_append]
      exact ⟨h, List.nodup_singleton k, by simpa using hmem⟩

/-! ## The erase folds (`delete` and the cleanup loops of `set`) -/

theorem getProp_foldl_erase :
    ∀ (ks : List JStr) (o : Owner) (k : JStr),
      (ks.foldl (fun acc pid => acc.setProp pid none) o).getProp k =
        if k ∈ ks then none else o.getProp k := by
  intro ks
  induction ks with
  | nil => intro o k; simp
  | cons k0 ks ih =>
    intro o k
    rw [List.foldl_cons, ih]
    by_cases hk : k ∈ ks
    · rw [if_pos hk, if_pos (List.mem_cons.mpr (Or.inr hk))]
    · rw [if_neg hk]
      by_cases hk0 : k = k0
      · rw [if_pos (List.mem_cons.mpr (Or.inl hk0)), hk0]
        exact Owner.getProp_setProp_none_same o k0
      · rw [if_neg (by simp [hk, hk0])]
        exact Owner.getProp_setProp_other o k0 k none hk0

theorem propIds_foldl_erase :
    ∀ (ks : List JStr) (o : Owner),
      (ks.foldl (fun acc pid => acc.setProp pid none) o).propIds =
        o.propIds.filter (fun x => !ks.contains x) := by
  intro ks
  induction ks with
  | nil =>
    intro o
    rw [List.foldl_nil]
    have : ∀ x ∈ o.propIds, (!([] : List JStr).contains x) = true := by
      intro x _; rfl
    rw [List.filter_eq_self.mpr this]
  | cons k0 ks ih =>
    intro o
    rw [List.foldl_cons, ih, Owner.propIds_setProp_none, List.filter_filter]
    apply List.filter_congr
    intro x _
    by_cases h0 : x = k0 <;> by_cases hks : x ∈ ks <;>
      simp [h0, hks, List.contains_cons]

theorem WF_foldl_erase :
    ∀ (ks : List JStr) (o : Owner), o.WF →
      (ks.foldl (fun acc pid => acc.setProp pid none) o).WF := by
  intro ks
  induction ks with
  | nil => intro o h; exact h
  | cons k0 ks ih =>
    intro o h
    rw [List.foldl_cons]
    exact ih _ (Owner.WF_setProp o k0 none h)

namespace DynamicProperty

/-! ## The chunk-writing loop of `set` -/

theorem writeChunks_getProp_of_lt (fullId : JStr) :
    ∀ (cs : List JStr) (o : Owner) (i j : Nat), j < i →
      (writeChunks o fullId i cs).getProp (getChunkPropertyId fullId j) =
        o.getProp (getChunkPropertyId fullId j) := by
  intro cs
  induction cs with
  | nil => intro o i j _; rfl
  | cons c cs ih =>
    intro o i j h
    show (writeChunks (setChunk o fullId i (some (.str c))) fullId (i + 1) cs).getProp
        (getChunkPropertyId fullId j) = _
    rw [ih _ (i + 1) j (by omega)]
    exact Owner.getProp_setProp_other _ _ _ _
      (fun he => by have := getChunkPropertyId_inj he; omega)

theorem writeChunks_getProp_mem (fullId : JStr) :
    ∀ (cs : List JStr) (o : Owner) (i j : Nat) (hj : j < cs.length),
      (writeChunks o fullId i cs).getProp (getChunkPropertyId fullId (i + j)) =
        some (.str (cs.get ⟨j, hj⟩)) := by
  intro cs
  induction cs with
  | nil => intro o i j hj; exact absurd hj (by simp)
  | cons c cs ih =>
    intro o i j hj
    cases j with
    | zero =>
      show (writeChunks (setChunk o fullId i (some (.str c))) fullId (i + 1) cs).getProp
          (getChunkPropertyId fullId (i + 0)) = some (.str c)
      rw [writeChunks_getProp_of_lt fullId cs _ (i + 1) (i + 0) (by omega)]
      show (setChunk o fullId i (some (.str c))).getProp (getChunkPropertyId fullId (i + 0)) =
        some (.str c)
      rw [show i + 0 = i from rfl]
      exact Owner.getProp_setProp_some_same o _ _
    | succ j' =>
      show (writeChunks (setChunk o fullId i (some (.str c))) fullId (i + 1) cs).getProp
          (getChunkPropertyId fullId (i + (j' + 1))) = _
      rw [show i + (j' + 1) = (i + 1) + j' from by omega]
      exact ih (setChunk o fullId i (some (.str c))) (i + 1) j'
        (Nat.lt_of_succ_lt_succ hj)

theorem mem_propIds_writeChunks (fullId : JStr) :
    ∀ (cs : List JStr) (o : Owner) (i : Nat) (k : JStr),
      k ∈ (writeChunks o fullId i cs).propIds ↔
        k ∈ o.propIds ∨ ∃ j < cs.length, k = getChunkPropertyId fullId (i + j) := by
  intro cs
  induction cs with
  | nil =>
    intro o i k
    show k ∈ o.propIds ↔ _
    simp
  | cons c cs ih =>
    intro o i k
    show k ∈ (writeChunks (setChunk o fullId i (some (.str c))) fullId (i + 1) cs).propIds ↔ _
    rw [ih]
    unfold setChunk
    rw [Owner.mem_propIds_setProp_some]
    constructor
    · rintro ((h | rfl) | ⟨j, hj, rfl⟩)
      · exact Or.inl h
      · exact Or.inr ⟨0, by simp, by rw [show i + 0 = i from rfl]⟩
      · refine Or.inr ⟨j + 1, by simp only [List.length_cons]; omega, ?_⟩
        rw [show i + (j + 1) = i + 1 + j from by omega]
    · rintro (h | ⟨j, hj, rfl⟩)
      · exact Or.inl (Or.inl h)
      · cases j with
        | zero => exact Or.inl (Or.inr (by rw [show i + 0 = i from rfl]))
        | succ j' =>
          refine Or.inr ⟨j', by simp only [List.length_cons] at hj; omega, ?_⟩
          rw [show i + (j' + 1) = i + 1 + j' from by omega]

theorem WF_writeChunks (fullId : JStr) :
    ∀ (cs : List JStr) (o : Owner) (i : Nat), o.WF → (writeChunks o fullId i cs).WF := by
  intro cs
  induction cs with
  | nil => intro o i h; exact h
  | cons c cs ih =>
    intro o i h
    exact ih _ (i + 1) (Owner.WF_setProp o _ _ h)

/-! ## The window loop of `_chunkString` -/

theorem flatten_chunkWindows (maxSize : Nat) (hpos : 0 < maxSize) :
    ∀ (fuel : Nat) (s : JStr), s.length ≤ fuel →
      (chunkWindows maxSize fuel s).flatten = s := by
  intro fuel
  induction fuel with
  | zero =>
    intro s h
    cases s with
    | nil => rfl
    | cons c cs => simp at h
  | succ f ih =>
    intro s h
    cases s with
    | nil => rfl
    | cons c cs =>
      show ((c :: cs).take maxSize :: chunkWindows maxSize f ((c :: cs).drop maxSize)).flatten
        = c :: cs
      rw [List.flatten_cons, ih _ (by
        rw [List.length_drop]
        simp only [List.length_cons] at h ⊢
        omega)]
      exact List.take_append_drop maxSize (c :: cs)

theorem length_le_chunkWindows (maxSize : Nat) :
    ∀ (fuel : Nat) (s : JStr) (c : JStr), c ∈ chunkWindows maxSize fuel s →
      c.length ≤ maxSize := by
  intro fuel
  induction fuel with
  | zero => intro s c h; cases h
  | succ f ih =>
    intro s c h
    cases s with
    | nil => cases h
    | cons x xs =>
      rcases List.mem_cons.mp h with rfl | hmem
      · rw [List.length_take]; omega
      · exact ih _ c hmem

theorem chunkWindows_ne_nil (maxSize : Nat) (fuel : Nat) (s : JStr)
    (hs : s ≠ []) (hfuel : 0 < fuel) : chunkWindows maxSize fuel s ≠ [] := by
  cases fuel with
  | zero => omega
  | succ f =>
    cases s with
    | nil => exact absurd rfl hs
    | cons c cs => simp [chunkWindows]

theorem utf8Bytes_ne_nil (c : Char) : utf8Bytes c ≠ [] := by
  unfold utf8Bytes
  dsimp only
  split
  · simp
  · split
    · simp
    · split
      · simp
      · simp

theorem encodeURIChar_ne_nil (c : Char) : encodeURIChar c ≠ [] := by
  unfold encodeURIChar
  split
  · simp
  · cases hb : utf8Bytes c with
    | nil => exact absurd hb (utf8Bytes_ne_nil c)
    | cons b bs => simp [byteEscape]

theorem encodeURI_eq_nil_iff (s : JStr) : encodeURI s = [] ↔ s = [] := by
  cases s with
  | nil => simp [encodeURI]
  | cons c cs =>
    simp only [encodeURI, List.flatMap_cons, iff_false, reduceCtorEq]
    intro h
    rcases List.append_eq_nil.mp h with ⟨h1, _⟩
    exact encodeURIChar_ne_nil c h1

theorem length_le_encodeURI (s : JStr) : s.length ≤ (encodeURI s).length := by
  induction s with
  | nil => simp [encodeURI]
  | cons c cs ih =>
    show (c :: cs).length ≤ (encodeURIChar c ++ encodeURI cs).length
    rw [List.length_append, List.length_cons]
    have : 1 ≤ (encodeURIChar c).length := by
      cases he : encodeURIChar c with
      | nil => exact absurd he (encodeURIChar_ne_nil c)
      | cons x xs => simp
    omega

theorem flatten_chunkString (s : JStr) : (chunkString s).flatten = encodeURI s :=
  flatten_chunkWindows MAX_CHUNK_SIZE (by unfold MAX_CHUNK_SIZE; omega) _ _ (le_refl _)

theorem length_le_chunkString (s : JStr) (c : JStr) (h : c ∈ chunkString s) :
    c.length ≤ MAX_CHUNK_SIZE :=
  length_le_chunkWindows MAX_CHUNK_SIZE _ _ c h

theorem chunkString_eq_nil_iff (s : JStr) : chunkString s = [] ↔ encodeURI s = [] := by
  unfold chunkString
  constructor
  · intro h
    by_contra hne
    exact chunkWindows_ne_nil MAX_CHUNK_SIZE _ _ hne (by
      cases he : encodeURI s with
      | nil => exact absurd he hne
      | cons x xs => simp [he]) h
  · intro h
    rw [h]
    rfl

end DynamicProperty

namespace DynamicProperty

/-! ## State after `set` / `delete` -/

theorem mem_propIds_deleteFrom {o1 : Owner} {prev : List JStr} {n : Nat} {k : JStr} :
    k ∈ (deleteFrom o1 prev n).propIds ↔ k ∈ o1.propIds ∧ k ∉ prev.drop n := by
  unfold deleteFrom
  rw [propIds_foldl_erase, List.mem_filter]
  simp

theorem getProp_deleteFrom {o1 : Owner} {prev : List JStr} {n : Nat} {k : JStr} :
    (deleteFrom o1 prev n).getProp k =
      if k ∈ prev.drop n then none else o1.getProp k := by
  unfold deleteFrom
  rw [getProp_foldl_erase]

theorem WF_deleteFrom {o1 : Owner} {prev : List JStr} {n : Nat} (h : o1.WF) :
    (deleteFrom o1 prev n).WF := WF_foldl_erase _ _ h

theorem WF_deleteProp {o : Owner} {id : JStr} {ns : Option JStr} (h : o.WF) :
    (deleteProp o id ns).WF := WF_foldl_erase _ _ h

/-- After `delete`, no host key matches the id's chunk pattern — with no
assumption on the prior state. -/
theorem filter_matching_after_delete (o : Owner) (id : JStr) (ns : Option JStr) :
    ((deleteProp o id ns).propIds.filter
      (matchesChunkPattern (getNamespacedId ns id))) = [] := by
  rw [List.eq_nil_iff_forall_not_mem]
  intro k hk
  rw [List.mem_filter] at hk
  obtain ⟨hmem, hmatch⟩ := hk
  unfold deleteProp at hmem
  rw [propIds_foldl_erase, List.mem_filter] at hmem
  obtain ⟨hmem0, hnc⟩ := hmem
  have hkfilter : k ∈ o.propIds.filter (matchesChunkPattern (getNamespacedId ns id)) :=
    List.mem_filter.mpr ⟨hmem0, hmatch⟩
  have : k ∈ getChunkPropertyIds o (getNamespacedId ns id) :=
    (getChunkPropertyIds_perm o _).mem_iff.mpr hkfilter
  simp at hnc
  exact hnc this

/-- After the string branch of `set` on a state whose matching keys were
the canonical run `0..m-1`, the matching keys are exactly the canonical
run `0..(number of new chunks)-1`. -/
theorem filter_matching_after_writes {o : Owner} {fullId : JStr} {cs : List JStr} {m : Nat}
    (hWF : o.WF)
    (hprev : (o.propIds.filter (matchesChunkPattern fullId)).Perm (chunkRun fullId m)) :
    ((deleteFrom (writeChunks o fullId 0 cs) (chunkRun fullId m) cs.length).propIds.filter
        (matchesChunkPattern fullId)).Perm (chunkRun fullId cs.length) := by
  have hWF' : (deleteFrom (writeChunks o fullId 0 cs) (chunkRun fullId m) cs.length).WF :=
    WF_deleteFrom (WF_writeChunks fullId cs o 0 hWF)
  rw [List.perm_ext_iff_of_nodup (hWF'.filter _) (chunkRun_nodup fullId cs.length)]
  intro k
  rw [List.mem_filter, mem_propIds_deleteFrom, mem_propIds_writeChunks]
  constructor
  · rintro ⟨⟨ho1 | ⟨j, hj, rfl⟩, hnd⟩, hmatch⟩
    · have hkfilter : k ∈ o.propIds.filter (matchesChunkPattern fullId) :=
        List.mem_filter.mpr ⟨ho1, hmatch⟩
      have hrun : k ∈ chunkRun fullId m := hprev.mem_iff.mp hkfilter
      obtain ⟨j, hjm, rfl⟩ := mem_chunkRun.mp hrun
      have hjlt : j < cs.length := by
        by_contra hge
        exact hnd (mem_drop_chunkRun.mpr ⟨j, by omega, hjm, rfl⟩)
      exact mem_chunkRun.mpr ⟨j, hjlt, rfl⟩
    · exact mem_chunkRun.mpr ⟨j, hj, by rw [show (0 : Nat) + j = j from by omega]⟩
  · intro hk
    obtain ⟨j, hj, rfl⟩ := mem_chunkRun.mp hk
    refine ⟨⟨Or.inr ⟨j, hj, by rw [show (0 : Nat) + j = j from by omega]⟩, ?_⟩,
      matchesChunkPattern_chunkKey fullId j⟩
    intro hd
    obtain ⟨j', h1, _, he⟩ := mem_drop_chunkRun.mp hd
    have := getChunkPropertyId_inj he
    omega

/-- Chunk values after the string branch of `set`. -/
theorem getProp_after_writes {o : Owner} {fullId : JStr} {cs : List JStr} {m : Nat}
    {j : Nat} (hj : j < cs.length) :
    (deleteFrom (writeChunks o fullId 0 cs) (chunkRun fullId m) cs.length).getProp
        (getChunkPropertyId fullId j) = some (.str (cs.getD j [])) := by
  rw [getProp_deleteFrom, if_neg (by
    intro hd
    obtain ⟨j', h1, _, he⟩ := mem_drop_chunkRun.mp hd
    have := getChunkPropertyId_inj he
    omega)]
  have := writeChunks_getProp_mem fullId cs o 0 j hj
  rw [show (0 : Nat) + j = j from by omega] at this
  rw [this, List.getD_eq_getElem cs [] hj]
  rfl

/-- After the non-string branch of `set` (a scalar write at index 0) on a
canonical state, the matching keys are exactly the run `0..0`. -/
theorem filter_matching_after_scalar {o : Owner} {fullId : JStr} {v0 : SVal} {m : Nat}
    (hWF : o.WF)
    (hprev : (o.propIds.filter (matchesChunkPattern fullId)).Perm (chunkRun fullId m)) :
    ((deleteFrom (setChunk o fullId 0 (some v0)) (chunkRun fullId m) 1).propIds.filter
        (matchesChunkPattern fullId)).Perm (chunkRun fullId 1) := by
  have hWF' : (deleteFrom (setChunk o fullId 0 (some v0)) (chunkRun fullId m) 1).WF :=
    WF_deleteFrom (Owner.WF_setProp _ _ _ hWF)
  rw [List.perm_ext_iff_of_nodup (hWF'.filter _) (chunkRun_nodup fullId 1)]
  intro k
  rw [List.mem_filter, mem_propIds_deleteFrom]
  unfold setChunk
  rw [Owner.mem_propIds_setProp_some]
  constructor
  · rintro ⟨⟨ho | rfl, hnd⟩, hmatch⟩
    · have hkfilter : k ∈ o.propIds.filter (matchesChunkPattern fullId) :=
        List.mem_filter.mpr ⟨ho, hmatch⟩
      obtain ⟨j, hjm, rfl⟩ := mem_chunkRun.mp (hprev.mem_iff.mp hkfilter)
      have hjlt : j < 1 := by
        by_contra hge
        exact hnd (mem_drop_chunkRun.mpr ⟨j, by omega, hjm, rfl⟩)
      exact mem_chunkRun.mpr ⟨j, hjlt, rfl⟩
    · exact mem_chunkRun.mpr ⟨0, by omega, rfl⟩
  · intro hk
    obtain ⟨j, hj, rfl⟩ := mem_chunkRun.mp hk
    have hj0 : j = 0 := by omega
    subst hj0
    refine ⟨⟨Or.inr rfl, ?_⟩, matchesChunkPattern_chunkKey fullId 0⟩
    intro hd
    obtain ⟨j', h1, _, he⟩ := mem_drop_chunkRun.mp hd
    have := getChunkPropertyId_inj he
    omega

/-- After the non-string branch of `set` when the serializer returned
`undefined` (index 0 is deleted), no matching key remains. -/
theorem filter_matching_after_scalar_undef {o : Owner} {fullId : JStr} {m : Nat}
    (hprev : (o.propIds.filter (matchesChunkPattern fullId)).Perm (chunkRun fullId m)) :
    ((deleteFrom (setChunk o fullId 0 none) (chunkRun fullId m) 1).propIds.filter
        (matchesChunkPattern fullId)) = [] := by
  rw [List.eq_nil_iff_forall_not_mem]
  intro k hk
  rw [List.mem_filter, mem_propIds_deleteFrom] at hk
  obtain ⟨⟨hmem, hnd⟩, hmatch⟩ := hk
  unfold setChunk at hmem
  rw [Owner.mem_propIds_setProp_none] at hmem
  obtain ⟨ho, hne⟩ := hmem
  have hkfilter : k ∈ o.propIds.filter (matchesChunkPattern fullId) :=
    List.mem_filter.mpr ⟨ho, hmatch⟩
  obtain ⟨j, hjm, rfl⟩ := mem_chunkRun.mp (hprev.mem_iff.mp hkfilter)
  cases j with
  | zero => exact hne rfl
  | succ j' => exact hnd (mem_drop_chunkRun.mpr ⟨j' + 1, by omega, hjm, rfl⟩)

/-- Erasing all matching keys of an arbitrary state: the string branch of
`set` with an empty chunk list (serializer returned `""`) leaves no
matching key, with no assumption on the prior state. -/
theorem filter_matching_after_empty {o : Owner} {fullId : JStr} :
    ((deleteFrom (writeChunks o fullId 0 []) (getChunkPropertyIds o fullId) 0).propIds.filter
        (matchesChunkPattern fullId)) = [] := by
  rw [List.eq_nil_iff_forall_not_mem]
  intro k hk
  rw [List.mem_filter, mem_propIds_deleteFrom] at hk
  obtain ⟨⟨hmem, hnd⟩, hmatch⟩ := hk
  have hmem0 : k ∈ o.propIds := by simpa [writeChunks] using hmem
  have hkfilter : k ∈ o.propIds.filter (matchesChunkPattern fullId) :=
    List.mem_filter.mpr ⟨hmem0, hmatch⟩
  have : k ∈ getChunkPropertyIds o fullId :=
    (getChunkPropertyIds_perm o fullId).mem_iff.mpr hkfilter
  exact hnd (by simpa using this)

end DynamicProperty

theorem foldl_append_map (f : JStr → JStr) :
    ∀ (pids : List JStr) (acc : JStr),
      pids.foldl (fun a p => a ++ f p) acc = acc ++ (pids.map f).flatten := by
  intro pids
  induction pids with
  | nil => intro acc; simp
  | cons p ps ih =>
    intro acc
    rw [List.foldl_cons, ih, List.map_cons, List.flatten_cons, List.append_assoc]

theorem getD_range_eq : ∀ (l : List JStr), (List.range l.length).map (fun i => l.getD i []) = l
  | [] => rfl
  | x :: xs => by
    rw [List.length_cons, List.range_succ_eq_map, List.map_cons, List.map_map]
    show (x :: xs).getD 0 [] ::
      (List.range xs.length).map ((fun i => (x :: xs).getD i []) ∘ Nat.succ) = x :: xs
    have h2 : ((fun i => (x :: xs).getD i []) ∘ Nat.succ) = (fun i => xs.getD i []) := by
      funext i; rfl
    rw [h2, getD_range_eq xs]
    rfl

namespace DynamicProperty

/-- What `get` computes when the chunk keys are the canonical run
`0..n-1` with `n ≥ 1` and the stored chunk payloads are the strings
`chunks`: reassemble in index order, decode, deserialize. -/
theorem get_of_run {o : Owner} {id : JStr} {opts : GetOpts} {n : Nat} {chunks : List JStr}
    (hids : getChunkPropertyIds o (getNamespacedId opts.ns id) =
      chunkRun (getNamespacedId opts.ns id) n)
    (hn : 0 < n) (hlen : chunks.length = n)
    (hvals : ∀ j, j < n →
      o.getProp (getChunkPropertyId (getNamespacedId opts.ns id) j) =
        some (.str (chunks.getD j []))) :
    get o id opts =
      (match decodeURI chunks.flatten with
       | some d => (opts.deserialize.getD defaultDeserialize) (some (.str d))
           (getNamespacedId opts.ns id)
       | none => .error .uriError) := by
  simp only [get]
  rw [hids]
  rw [if_neg (by
    rw [List.isEmpty_iff]
    intro he
    have := chunkRun_length (getNamespacedId opts.ns id) n
    rw [he] at this
    simp at this
    omega)]
  by_cases h1 : n = 1
  · subst h1
    obtain ⟨c, rfl⟩ := List.length_eq_one.mp hlen
    have hrun1 : chunkRun (getNamespacedId opts.ns id) 1 =
        [getChunkPropertyId (getNamespacedId opts.ns id) 0] := rfl
    rw [hrun1]
    have hv0 := hvals 0 (by omega)
    simp only [List.length_cons, List.length_nil, List.headD_cons]
    rw [show ((0 + 1 : Nat) == 1) = true from rfl, if_pos rfl]
    rw [hv0]
    show (match decodeURI c with
      | some d => (opts.deserialize.getD defaultDeserialize) (some (.str d))
          (getNamespacedId opts.ns id)
      | none => Except.error .uriError) = _
    rw [show ([c] : List JStr).flatten = c from by
      rw [List.flatten_cons, List.flatten_nil, List.append_nil]]
  · rw [if_neg (by
      rw [chunkRun_length]
      intro hb
      rw [beq_iff_eq] at hb
      exact h1 hb)]
    rw [foldl_append_map]
    have hmap : (chunkRun (getNamespacedId opts.ns id) n).map
        (fun pid => jsStringCoerce (o.getProp pid)) = chunks := by
      unfold chunkRun
      rw [List.map_map]
      have : ∀ i ∈ List.range n,
          ((fun pid => jsStringCoerce (o.getProp pid)) ∘
            getChunkPropertyId (getNamespacedId opts.ns id)) i = chunks.getD i [] := by
        intro i hi
        rw [List.mem_range] at hi
        show jsStringCoerce (o.getProp (getChunkPropertyId (getNamespacedId opts.ns id) i)) = _
        rw [hvals i hi]
        rfl
      rw [List.map_congr_left this, ← hlen, getD_range_eq]
    rw [hmap, List.nil_append]

end DynamicProperty

/-- Whether a JS value is a string. -/
def JVal.isStr : JVal → Bool
  | .str _ => true
  | _ => false

namespace DynamicProperty

/-! ## Branch equations of `set` -/

theorem set_eq_of_undef (o : Owner) (id : JStr) (opts : SetOpts) :
    set o id .undef opts = (deleteProp o id opts.ns, none) := rfl

theorem set_eq_of_bad {o : Owner} {id : JStr} {value : JVal} {opts : SetOpts}
    (hundef : value.isUndef = false)
    (hbad : isSerializedValueE
      ((opts.serialize.getD defaultSerialize) value (getNamespacedId opts.ns id)) =
      .ok false) :
    set o id value opts = (o, some .invalidSerialization) := by
  simp only [set]
  rw [hundef]
  simp only [Bool.false_eq_true, if_false]
  rw [hbad]

theorem set_eq_of_err {o : Owner} {id : JStr} {value : JVal} {opts : SetOpts} {e : JsErr}
    (hundef : value.isUndef = false)
    (herr : isSerializedValueE
      ((opts.serialize.getD defaultSerialize) value (getNamespacedId opts.ns id)) =
      .error e) :
    set o id value opts = (o, some e) := by
  simp only [set]
  rw [hundef]
  simp only [Bool.false_eq_true, if_false]
  rw [herr]

theorem set_eq_of_str {o : Owner} {id : JStr} {value : JVal} {opts : SetOpts} {s : JStr}
    (hundef : value.isUndef = false)
    (hser : (opts.serialize.getD defaultSerialize) value (getNamespacedId opts.ns id) =
      .str s) :
    set o id value opts =
      (deleteFrom (writeChunks o (getNamespacedId opts.ns id) 0 (chunkString s))
        (getChunkPropertyIds o (getNamespacedId opts.ns id)) (chunkString s).length,
       none) := by
  simp only [set]
  rw [hundef]
  simp only [Bool.false_eq_true, if_false]
  rw [hser]
  rfl

theorem set_eq_of_scalar {o : Owner} {id : JStr} {value : JVal} {opts : SetOpts} {sv : JVal}
    (hundef : value.isUndef = false)
    (hser : (opts.serialize.getD defaultSerialize) value (getNamespacedId opts.ns id) = sv)
    (hstr : sv.isStr = false)
    (hok : isSerializedValueE sv = .ok true) :
    set o id value opts =
      (deleteFrom (setChunk o (getNamespacedId opts.ns id) 0 (jvalToHost sv))
        (getChunkPropertyIds o (getNamespacedId opts.ns id)) 1, none) := by
  simp only [set]
  rw [hundef]
  simp only [Bool.false_eq_true, if_false]
  rw [hser, hok]
  cases sv with
  | undef => rfl
  | null => rfl
  | bool b => rfl
  | num n => rfl
  | str t => simp [JVal.isStr] at hstr
  | arr xs => rfl
  | obj fs => rfl

end DynamicProperty

/-! ## Round trip of `encodeURI` / `decodeURI` -/

theorem hexVal_hexDigitUpper : ∀ n < 16, hexVal (hexDigitUpper n) = some n := by decide

theorem reserved_allowed : ∀ n < 128, uriReservedCode n = true → uriAllowedCode n = true := by
  decide

theorem percent_ne_of_allowed {c : Char} (h : uriAllowedCode c.toNat = true) : c ≠ '%' := by
  intro he
  rw [he] at h
  exact absurd h (by decide)

theorem char_valid_cases (c : Char) :
    c.toNat < 0xD800 ∨ (0xDFFF < c.toNat ∧ c.toNat < 0x110000) := c.valid

theorem char_toNat_lt (c : Char) : c.toNat < 0x110000 := by
  rcases char_valid_cases c with h | h
  · omega
  · omega

theorem readByte_byteEscape {b : Nat} (hb : b < 256) (r : JStr) :
    readByte (byteEscape b ++ r) = some (b, r) := by
  show readByte ('%' :: hexDigitUpper (b / 16) :: hexDigitUpper (b % 16) :: r) = some (b, r)
  unfold readByte
  dsimp only
  rw [if_pos rfl, hexVal_hexDigitUpper (b / 16) (by omega),
    hexVal_hexDigitUpper (b % 16) (by omega)]
  show some (b / 16 * 16 + b % 16, r) = some (b, r)
  congr 2
  omega

theorem decode_step_plain {c : Char} (hc : c ≠ '%') (fuel : Nat) (t : JStr) :
    decodeURIAux (fuel + 1) (c :: t) = (decodeURIAux fuel t).map (fun u => c :: u) := by
  show (if c = '%' then _ else (decodeURIAux fuel t).map (fun u => c :: u)) = _
  rw [if_neg hc]

theorem decode_percent_single {b : Nat} (hb : b < 128) (hres : uriReservedCode b = false)
    (fuel : Nat) (t : JStr) :
    decodeURIAux (fuel + 1) (byteEscape b ++ t) =
      (decodeURIAux fuel t).map (fun u => Char.ofNat b :: u) := by
  show decodeURIAux (fuel + 1)
    ('%' :: hexDigitUpper (b / 16) :: hexDigitUpper (b % 16) :: t) = _
  unfold decodeURIAux
  dsimp only
  rw [if_pos rfl, hexVal_hexDigitUpper (b / 16) (by omega),
    hexVal_hexDigitUpper (b % 16) (by omega)]
  dsimp only
  have hb' : b / 16 * 16 + b % 16 = b := by omega
  rw [hb']
  rw [if_pos (by omega : b < 128), if_neg (by rw [hres]; exact Bool.false_ne_true)]
  rw [← decodeURIAux.eq_def]

theorem decode_percent_two {b1 b2 : Nat} (h1 : 192 ≤ b1) (h1' : b1 < 224)
    (h2 : 128 ≤ b2) (h2' : b2 < 192)
    (hval : ((b1 - 192) * 64 + (b2 - 128)).isValidChar)
    (fuel : Nat) (t : JStr) :
    decodeURIAux (fuel + 1) (byteEscape b1 ++ (byteEscape b2 ++ t)) =
      (decodeURIAux fuel t).map
        (fun u => Char.ofNat ((b1 - 192) * 64 + (b2 - 128)) :: u) := by
  show decodeURIAux (fuel + 1)
    ('%' :: hexDigitUpper (b1 / 16) :: hexDigitUpper (b1 % 16) :: (byteEscape b2 ++ t)) = _
  unfold decodeURIAux
  dsimp only
  rw [if_pos rfl, hexVal_hexDigitUpper (b1 / 16) (by omega),
    hexVal_hexDigitUpper (b1 % 16) (by omega)]
  dsimp only
  rw [show b1 / 16 * 16 + b1 % 16 = b1 from by omega]
  rw [if_neg (by omega : ¬ b1 < 128), if_pos (⟨h1, h1'⟩ : 192 ≤ b1 ∧ b1 < 224)]
  rw [readByte_byteEscape (by omega : b2 < 256) t]
  dsimp only
  rw [if_pos (⟨h2, h2'⟩ : 128 ≤ b2 ∧ b2 < 192), dif_pos hval]
  try rw [← decodeURIAux.eq_def]

theorem decode_percent_three {b1 b2 b3 : Nat} (h1 : 224 ≤ b1) (h1' : b1 < 240)
    (h2 : 128 ≤ b2) (h2' : b2 < 192) (h3 : 128 ≤ b3) (h3' : b3 < 192)
    (hval : ((b1 - 224) * 4096 + (b2 - 128) * 64 + (b3 - 128)).isValidChar)
    (fuel : Nat) (t : JStr) :
    decodeURIAux (fuel + 1) (byteEscape b1 ++ (byteEscape b2 ++ (byteEscape b3 ++ t))) =
      (decodeURIAux fuel t).map
        (fun u => Char.ofNat ((b1 - 224) * 4096 + (b2 - 128) * 64 + (b3 - 128)) :: u) := by
  show decodeURIAux (fuel + 1)
    ('%' :: hexDigitUpper (b1 / 16) :: hexDigitUpper (b1 % 16) ::
      (byteEscape b2 ++ (byteEscape b3 ++ t))) = _
  unfold decodeURIAux
  dsimp only
  rw [if_pos rfl, hexVal_hexDigitUpper (b1 / 16) (by omega),
    hexVal_hexDigitUpper (b1 % 16) (by omega)]
  dsimp only
  rw [show b1 / 16 * 16 + b1 % 16 = b1 from by omega]
  rw [if_neg (by omega : ¬ b1 < 128), if_neg (by omega : ¬ (192 ≤ b1 ∧ b1 < 224)),
    if_pos (⟨h1, h1'⟩ : 224 ≤ b1 ∧ b1 < 240)]
  rw [readByte_byteEscape (by omega : b2 < 256) (byteEscape b3 ++ t)]
  dsimp only
  rw [readByte_byteEscape (by omega : b3 < 256) t]
  dsimp only
  rw [if_pos (⟨⟨h2, h2'⟩, h3, h3'⟩ : (128 ≤ b2 ∧ b2 < 192) ∧ (128 ≤ b3 ∧ b3 < 192)),
    dif_pos hval]
  try rw [← decodeURIAux.eq_def]

theorem decode_percent_four {b1 b2 b3 b4 : Nat} (h1 : 240 ≤ b1) (h1' : b1 < 248)
    (h2 : 128 ≤ b2) (h2' : b2 < 192) (h3 : 128 ≤ b3) (h3' : b3 < 192)
    (h4 : 128 ≤ b4) (h4' : b4 < 192)
    (hval : ((b1 - 240) * 262144 + (b2 - 128) * 4096 + (b3 - 128) * 64 +
      (b4 - 128)).isValidChar)
    (fuel : Nat) (t : JStr) :
    decodeURIAux (fuel + 1)
        (byteEscape b1 ++ (byteEscape b2 ++ (byteEscape b3 ++ (byteEscape b4 ++ t)))) =
      (decodeURIAux fuel t).map
        (fun u => Char.ofNat ((b1 - 240) * 262144 + (b2 - 128) * 4096 + (b3 - 128) * 64 +
          (b4 - 128)) :: u) := by
  show decodeURIAux (fuel + 1)
    ('%' :: hexDigitUpper (b1 / 16) :: hexDigitUpper (b1 % 16) ::
      (byteEscape b2 ++ (byteEscape b3 ++ (byteEscape b4 ++ t)))) = _
  unfold decodeURIAux
  dsimp only
  rw [if_pos rfl, hexVal_hexDigitUpper (b1 / 16) (by omega),
    hexVal_hexDigitUpper (b1 % 16) (by omega)]
  dsimp only
  rw [show b1 / 16 * 16 + b1 % 16 = b1 from by omega]
  rw [if_neg (by omega : ¬ b1 < 128), if_neg (by omega : ¬ (192 ≤ b1 ∧ b1 < 224)),
    if_neg (by omega : ¬ (224 ≤ b1 ∧ b1 < 240)),
    if_pos (⟨h1, h1'⟩ : 240 ≤ b1 ∧ b1 < 248)]
  rw [readByte_byteEscape (by omega : b2 < 256) (byteEscape b3 ++ (byteEscape b4 ++ t))]
  dsimp only
  rw [readByte_byteEscape (by omega : b3 < 256) (byteEscape b4 ++ t)]
  dsimp only
  rw [readByte_byteEscape (by omega : b4 < 256) t]
  dsimp only
  rw [if_pos (⟨⟨h2, h2'⟩, ⟨h3, h3'⟩, h4, h4'⟩ :
      (128 ≤ b2 ∧ b2 < 192) ∧ (128 ≤ b3 ∧ b3 < 192) ∧ (128 ≤ b4 ∧ b4 < 192)),
    dif_pos hval]
  try rw [← decodeURIAux.eq_def]

theorem decode_step_escChar {c : Char} (hc : uriAllowedCode c.toNat = false)
    (fuel : Nat) (t : JStr) :
    decodeURIAux (fuel + 1) (encodeURIChar c ++ t) =
      (decodeURIAux fuel t).map (fun u => c :: u) := by
  rw [show encodeURIChar c = (utf8Bytes c).flatMap byteEscape from by
    unfold encodeURIChar; rw [if_neg (by rw [hc]; exact Bool.false_ne_true)]]
  have hlt := char_toNat_lt c
  by_cases hr1 : c.toNat < 128
  · rw [show utf8Bytes c = [c.toNat] from by
      unfold utf8Bytes; dsimp only; rw [if_pos hr1]]
    rw [show ([c.toNat] : List Nat).flatMap byteEscape ++ t = byteEscape c.toNat ++ t from by
      simp]
    rw [decode_percent_single hr1 (by
      by_contra hres
      rw [Bool.not_eq_false] at hres
      rw [reserved_allowed c.toNat hr1 hres] at hc
      simp at hc) fuel t]
    rw [Char.ofNat_toNat]
  · by_cases hr2 : c.toNat < 2048
    · rw [show utf8Bytes c = [192 + c.toNat / 64, 128 + c.toNat % 64] from by
        unfold utf8Bytes; dsimp only; rw [if_neg hr1, if_pos hr2]]
      rw [show ([192 + c.toNat / 64, 128 + c.toNat % 64] : List Nat).flatMap byteEscape ++ t =
        byteEscape (192 + c.toNat / 64) ++ (byteEscape (128 + c.toNat % 64) ++ t) from by
        simp [List.append_assoc]]
      rw [decode_percent_two (by omega) (by omega) (by omega) (by omega) (by
        rw [show (192 + c.toNat / 64 - 192) * 64 + (128 + c.toNat % 64 - 128) = c.toNat from
          by omega]
        rcases char_valid_cases c with h | h
        · exact Or.inl h
        · exact Or.inr ⟨by omega, by omega⟩) fuel t]
      rw [show (192 + c.toNat / 64 - 192) * 64 + (128 + c.toNat % 64 - 128) = c.toNat from
        by omega, Char.ofNat_toNat]
    · by_cases hr3 : c.toNat < 65536
      · rw [show utf8Bytes c = [224 + c.toNat / 4096, 128 + c.toNat / 64 % 64,
            128 + c.toNat % 64] from by
          unfold utf8Bytes; dsimp only; rw [if_neg hr1, if_neg hr2, if_pos hr3]]
        rw [show ([224 + c.toNat / 4096, 128 + c.toNat / 64 % 64, 128 + c.toNat % 64] :
            List Nat).flatMap byteEscape ++ t =
          byteEscape (224 + c.toNat / 4096) ++ (byteEscape (128 + c.toNat / 64 % 64) ++
            (byteEscape (128 + c.toNat % 64) ++ t)) from by
          simp [List.append_assoc]]
        rw [decode_percent_three (by omega) (by omega) (by omega) (by omega) (by omega)
          (by omega) (by
            rw [show (224 + c.toNat / 4096 - 224) * 4096 + (128 + c.toNat / 64 % 64 - 128) * 64 +
              (128 + c.toNat % 64 - 128) = c.toNat from by omega]
            rcases char_valid_cases c with h | h
            · exact Or.inl h
            · exact Or.inr ⟨by omega, by omega⟩) fuel t]
        rw [show (224 + c.toNat / 4096 - 224) * 4096 + (128 + c.toNat / 64 % 64 - 128) * 64 +
          (128 + c.toNat % 64 - 128) = c.toNat from by omega, Char.ofNat_toNat]
      · rw [show utf8Bytes c = [240 + c.toNat / 262144, 128 + c.toNat / 4096 % 64,
            128 + c.toNat / 64 % 64, 128 + c.toNat % 64] from by
          unfold utf8Bytes; dsimp only; rw [if_neg hr1, if_neg hr2, if_neg hr3]]
        rw [show ([240 + c.toNat / 262144, 128 + c.toNat / 4096 % 64, 128 + c.toNat / 64 % 64,
            128 + c.toNat % 64] : List Nat).flatMap byteEscape ++ t =
          byteEscape (240 + c.toNat / 262144) ++ (byteEscape (128 + c.toNat / 4096 % 64) ++
            (byteEscape (128 + c.toNat / 64 % 64) ++ (byteEscape (128 + c.toNat % 64) ++ t)))
          from by simp [List.append_assoc]]
        rw [decode_percent_four (by omega) (by omega) (by omega) (by omega) (by omega)
          (by omega) (by omega) (by omega) (by
            rw [show (240 + c.toNat / 262144 - 240) * 262144 +
              (128 + c.toNat / 4096 % 64 - 128) * 4096 + (128 + c.toNat / 64 % 64 - 128) * 64 +
              (128 + c.toNat % 64 - 128) = c.toNat from by omega]
            rcases char_valid_cases c with h | h
            · exact Or.inl h
            · exact Or.inr ⟨by omega, by omega⟩) fuel t]
        rw [show (240 + c.toNat / 262144 - 240) * 262144 +
          (128 + c.toNat / 4096 % 64 - 128) * 4096 + (128 + c.toNat / 64 % 64 - 128) * 64 +
          (128 + c.toNat % 64 - 128) = c.toNat from by omega, Char.ofNat_toNat]

theorem decode_encode (s : JStr) :
    ∀ fuel, s.length < fuel → decodeURIAux fuel (encodeURI s) = some s := by
  induction s with
  | nil =>
    intro fuel h
    cases fuel with
    | zero => omega
    | succ f => rfl
  | cons c cs ih =>
    intro fuel h
    cases fuel with
    | zero => omega
    | succ f =>
      show decodeURIAux (f + 1) (encodeURIChar c ++ encodeURI cs) = some (c :: cs)
      by_cases hc : uriAllowedCode c.toNat = true
      · rw [show encodeURIChar c = [c] from by unfold encodeURIChar; rw [if_pos hc]]
        show decodeURIAux (f + 1) (c :: encodeURI cs) = _
        rw [decode_step_plain (percent_ne_of_allowed hc) f (encodeURI cs),
          ih f (by rw [List.length_cons] at h; omega)]
        rfl
      · rw [decode_step_escChar (by simpa using hc) f (encodeURI cs),
          ih f (by rw [List.length_cons] at h; omega)]
        rfl

/-- The byte-safe transform round-trips: `decodeURI (encodeURI s) = s`. -/
theorem decodeURI_encodeURI (s : JStr) : decodeURI (encodeURI s) = some s := by
  unfold decodeURI
  apply decode_encode
  have := DynamicProperty.length_le_encodeURI s
  omega

/-! ## Round trip of `JSON.stringify` / `JSON.parse` -/

/-- JSON-representable values: no `undefined` anywhere.  On these,
`JSON.stringify` produces a string and `JSON.parse` restores the value
exactly. -/
inductive Representable : JVal → Prop
  | null : Representable .null
  | bool (b : Bool) : Representable (.bool b)
  | num (n : Int) : Representable (.num n)
  | str (s : JStr) : Representable (.str s)
  | arr (xs : List JVal) : (∀ x ∈ xs, Representable x) → Representable (.arr xs)
  | obj (fs : List (JStr × JVal)) : (∀ kv ∈ fs, Representable kv.2) → Representable (.obj fs)

theorem stringify_total {v : JVal} (h : Representable v) : ∃ sv, stringifyVal v = some sv := by
  cases h with
  | null => exact ⟨_, rfl⟩
  | bool b => cases b <;> exact ⟨_, rfl⟩
  | num n => exact ⟨_, rfl⟩
  | str s => exact ⟨_, rfl⟩
  | arr xs _ => exact ⟨_, rfl⟩
  | obj fs _ => exact ⟨_, rfl⟩

theorem intToStr_ne_nil (n : Int) : intToStr n ≠ [] := by
  unfold intToStr
  split
  · simp
  · exact natToStr_ne_nil _

theorem stringify_ne_nil {v : JVal} {sv : JStr} (hser : stringifyVal v = some sv) :
    sv ≠ [] := by
  cases v with
  | undef => exact absurd hser (by simp [stringifyVal])
  | null =>
    rw [show stringifyVal .null = some (js "null") from rfl] at hser
    rw [← Option.some_injective _ hser]
    simp [js]
  | bool b =>
    cases b
    · rw [show stringifyVal (.bool false) = some (js "false") from rfl] at hser
      rw [← Option.some_injective _ hser]
      simp [js]
    · rw [show stringifyVal (.bool true) = some (js "true") from rfl] at hser
      rw [← Option.some_injective _ hser]
      simp [js]
  | num n =>
    rw [show stringifyVal (.num n) = some (intToStr n) from rfl] at hser
    rw [← Option.some_injective _ hser]
    exact intToStr_ne_nil n
  | str s =>
    rw [show stringifyVal (.str s) = some (quoteJStr s) from rfl] at hser
    rw [← Option.some_injective _ hser]
    simp [quoteJStr]
  | arr xs =>
    rw [show stringifyVal (.arr xs) = some ('[' :: joinCommas (stringifyItems xs) ++ [']'])
      from rfl] at hser
    rw [← Option.some_injective _ hser]
    simp
  | obj fs =>
    rw [show stringifyVal (.obj fs) =
      some ('\x7b' :: joinCommas (stringifyFields fs) ++ ['\x7d']) from rfl] at hser
    rw [← Option.some_injective _ hser]
    simp

theorem ne_of_isDigit {c d : Char} (hc : c.isDigit = true) (hd : d.isDigit = false) :
    ¬ c = d := by
  intro he
  subst he
  rw [hc] at hd
  cases hd

theorem natToStr_cons (n : Nat) :
    ∃ h t, natToStr n = h :: t ∧ h.isDigit = true := by
  cases he : natToStr n with
  | nil => exact absurd he (natToStr_ne_nil n)
  | cons h t =>
    refine ⟨h, t, rfl, mem_natToStr_isDigit (n := n) ?_⟩
    rw [he]
    exact List.mem_cons_self h t

theorem stringify_head_ne_rbracket {v : JVal} {sv : JStr} (hrep : Representable v)
    (hser : stringifyVal v = some sv) : ∃ h t, sv = h :: t ∧ ¬ h = ']' := by
  cases hrep with
  | null =>
    rw [show stringifyVal .null = some (js "null") from rfl] at hser
    exact ⟨'n', _, (Option.some_injective _ hser).symm, by decide⟩
  | bool b =>
    cases b
    · rw [show stringifyVal (.bool false) = some (js "false") from rfl] at hser
      exact ⟨'f', _, (Option.some_injective _ hser).symm, by decide⟩
    · rw [show stringifyVal (.bool true) = some (js "true") from rfl] at hser
      exact ⟨'t', _, (Option.some_injective _ hser).symm, by decide⟩
  | num n =>
    rw [show stringifyVal (.num n) = some (intToStr n) from rfl] at hser
    have hsv := (Option.some_injective _ hser).symm
    unfold intToStr at hsv
    by_cases hneg : n < 0
    · rw [if_pos hneg] at hsv
      exact ⟨'-', _, hsv, by decide⟩
    · rw [if_neg hneg] at hsv
      obtain ⟨h, t, he, hd⟩ := natToStr_cons n.toNat
      exact ⟨h, t, by rw [hsv, he], ne_of_isDigit hd (by decide)⟩
  | str s =>
    rw [show stringifyVal (.str s) = some (quoteJStr s) from rfl] at hser
    exact ⟨'"', _, (Option.some_injective _ hser).symm, by decide⟩
  | arr xs _ =>
    rw [show stringifyVal (.arr xs) = some ('[' :: joinCommas (stringifyItems xs) ++ [']'])
      from rfl] at hser
    exact ⟨'[', _, (Option.some_injective _ hser).symm, by decide⟩
  | obj fs _ =>
    rw [show stringifyVal (.obj fs) =
      some ('\x7b' :: joinCommas (stringifyFields fs) ++ ['\x7d']) from rfl] at hser
    exact ⟨'\x7b', _, (Option.some_injective _ hser).symm, by decide⟩

theorem hexVal_hexDigitLower : ∀ n < 16, hexVal (hexDigitLower n) = some n := by decide

theorem parseStrBody_cons_plain {c : Char} (h1 : ¬ c = '"') (h2 : ¬ c = '\\') (t : JStr) :
    parseStrBody (c :: t) = (parseStrBody t).map (fun p => (c :: p.1, p.2)) := by
  conv_lhs => unfold parseStrBody
  rw [if_neg h1, if_neg h2]

theorem parseStrBody_cons_esc (e : Char) (t : JStr) :
    parseStrBody ('\\' :: e :: t) =
      (if e = '"' then (parseStrBody t).map (fun p => ('"' :: p.1, p.2))
      else if e = '\\' then (parseStrBody t).map (fun p => ('\\' :: p.1, p.2))
      else if e = '/' then (parseStrBody t).map (fun p => ('/' :: p.1, p.2))
      else if e = 'b' then (parseStrBody t).map (fun p => ('\x08' :: p.1, p.2))
      else if e = 'f' then (parseStrBody t).map (fun p => ('\x0c' :: p.1, p.2))
      else if e = 'n' then (parseStrBody t).map (fun p => ('\n' :: p.1, p.2))
      else if e = 'r' then (parseStrBody t).map (fun p => ('\r' :: p.1, p.2))
      else if e = 't' then (parseStrBody t).map (fun p => ('\t' :: p.1, p.2))
      else if e = 'u' then
        (match t with
        | h1 :: h2 :: h3 :: h4 :: cs3 =>
          match hexVal h1, hexVal h2, hexVal h3, hexVal h4 with
          | some a, some b, some c2, some d =>
            let n := ((a * 16 + b) * 16 + c2) * 16 + d
            if _h : n.isValidChar then
              (parseStrBody cs3).map (fun p => (Char.ofNat n :: p.1, p.2))
            else none
          | _, _, _, _ => none
        | _ => none)
      else none) := by
  conv_lhs => unfold parseStrBody
  rw [if_neg (by decide : ¬ ('\\' : Char) = '"'), if_pos rfl]
  rfl

theorem parseStrBody_quote :
    ∀ (s rest : JStr), parseStrBody (s.flatMap escChar ++ '"' :: rest) = some (s, rest) := by
  intro s
  induction s with
  | nil =>
    intro rest
    show parseStrBody ('"' :: rest) = some ([], rest)
    conv_lhs => unfold parseStrBody
    rw [if_pos rfl]
  | cons c cs ih =>
    intro rest
    rw [show (c :: cs).flatMap escChar ++ '"' :: rest =
      escChar c ++ (cs.flatMap escChar ++ '"' :: rest) from by
        rw [List.flatMap_cons, List.append_assoc]]
    by_cases h1 : c = '"'
    · subst h1
      show parseStrBody ('\\' :: '"' :: (cs.flatMap escChar ++ '"' :: rest)) = _
      rw [parseStrBody_cons_esc, if_pos rfl, ih rest]
      rfl
    · by_cases h2 : c = '\\'
      · subst h2
        show parseStrBody ('\\' :: '\\' :: (cs.flatMap escChar ++ '"' :: rest)) = _
        rw [parseStrBody_cons_esc, if_neg (by decide), if_pos rfl, ih rest]
        rfl
      · by_cases h3 : c = '\x08'
        · subst h3
          show parseStrBody ('\\' :: 'b' :: (cs.flatMap escChar ++ '"' :: rest)) = _
          rw [parseStrBody_cons_esc, if_neg (by decide), if_neg (by decide),
            if_neg (by decide), if_pos rfl, ih rest]
          rfl
        · by_cases h4 : c = '\t'
          · subst h4
            show parseStrBody ('\\' :: 't' :: (cs.flatMap escChar ++ '"' :: rest)) = _
            rw [parseStrBody_cons_esc, if_neg (by decide), if_neg (by decide),
              if_neg (by decide), if_neg (by decide), if_neg (by decide),
              if_neg (by decide), if_neg (by decide), if_pos rfl, ih rest]
            rfl
          · by_cases h5 : c = '\n'
            · subst h5
              show parseStrBody ('\\' :: 'n' :: (cs.flatMap escChar ++ '"' :: rest)) = _
              rw [parseStrBody_cons_esc, if_neg (by decide), if_neg (by decide),
                if_neg (by decide), if_neg (by decide), if_neg (by decide),
                if_pos rfl, ih rest]
              rfl
            · by_cases h6 : c = '\x0c'
              · subst h6
                show parseStrBody ('\\' :: 'f' :: (cs.flatMap escChar ++ '"' :: rest)) = _
                rw [parseStrBody_cons_esc, if_neg (by decide), if_neg (by decide),
                  if_neg (by decide), if_neg (by decide), if_pos rfl, ih rest]
                rfl
              · by_cases h7 : c = '\r'
                · subst h7
                  show parseStrBody ('\\' :: 'r' :: (cs.flatMap escChar ++ '"' :: rest)) = _
                  rw [parseStrBody_cons_esc, if_neg (by decide), if_neg (by decide),
                    if_neg (by decide), if_neg (by decide), if_neg (by decide),
                    if_neg (by decide), if_pos rfl, ih rest]
                  rfl
                · by_cases h8 : c.toNat < 32
                  · rw [show escChar c = ['\\', 'u', '0', '0', hexDigitLower (c.toNat / 16),
                        hexDigitLower (c.toNat % 16)] from by
                      unfold escChar
                      rw [if_neg h1, if_neg h2, if_neg h3, if_neg h4, if_neg h5, if_neg h6,
                        if_neg h7, if_pos h8]]
                    show parseStrBody ('\\' :: 'u' :: '0' :: '0' ::
                      hexDigitLower (c.toNat / 16) :: hexDigitLower (c.toNat % 16) ::
                      (cs.flatMap escChar ++ '"' :: rest)) = _
                    rw [parseStrBody_cons_esc, if_neg (by decide), if_neg (by decide),
                      if_neg (by decide), if_neg (by decide), if_neg (by decide),
                      if_neg (by decide), if_neg (by decide), if_neg (by decide),
                      if_pos rfl]
                    dsimp only
                    rw [show hexVal '0' = some 0 from by decide,
                      hexVal_hexDigitLower (c.toNat / 16) (by omega),
                      hexVal_hexDigitLower (c.toNat % 16) (by omega)]
                    dsimp only
                    rw [show ((0 * 16 + 0) * 16 + c.toNat / 16) * 16 + c.toNat % 16 = c.toNat
                      from by omega]
                    rw [dif_pos (Or.inl (by omega : c.toNat < 0xD800))]
                    rw [ih rest, Char.ofNat_toNat]
                    rfl
                  · rw [show escChar c = [c] from by
                      unfold escChar
                      rw [if_neg h1, if_neg h2, if_neg h3, if_neg h4, if_neg h5, if_neg h6,
                        if_neg h7, if_neg h8]]
                    show parseStrBody (c :: (cs.flatMap escChar ++ '"' :: rest)) = _
                    rw [parseStrBody_cons_plain h1 h2, ih rest]
                    rfl

theorem jsonParsers_pv_succ (fuel : Nat) (s : JStr) :
    (jsonParsers (fuel + 1)).1 s =
      (match s with
      | [] => none
      | c :: cs =>
        if c = '"' then
          match parseStrBody cs with
          | some (t, r) => some (.str t, r)
          | none => none
        else if c = '[' then
          if cs.headD ' ' = ']' then some (.arr [], cs.tail)
          else
            match (jsonParsers fuel).2.1 cs with
            | some (xs, r) => some (.arr xs, r)
            | none => none
        else if c = '\x7b' then
          if cs.headD ' ' = '\x7d' then some (.obj [], cs.tail)
          else
            match (jsonParsers fuel).2.2 cs with
            | some (fs, r) => some (.obj fs, r)
            | none => none
        else if c = 't' then
          match cs with
          | 'r' :: 'u' :: 'e' :: r => some (.bool true, r)
          | _ => none
        else if c = 'f' then
          match cs with
          | 'a' :: 'l' :: 's' :: 'e' :: r => some (.bool false, r)
          | _ => none
        else if c = 'n' then
          match cs with
          | 'u' :: 'l' :: 'l' :: r => some (.null, r)
          | _ => none
        else if c = '-' then
          match parseNatTok cs with
          | some (n, r) => some (.num (-(n : Int)), r)
          | none => none
        else if c.isDigit then
          match parseNatTok (c :: cs) with
          | some (n, r) => some (.num (n : Int), r)
          | none => none
        else none) := rfl

theorem jsonParsers_pa_succ (fuel : Nat) (s : JStr) :
    (jsonParsers (fuel + 1)).2.1 s =
      (match (jsonParsers (fuel + 1)).1 s with
      | some (x, r) =>
        if r.headD ' ' = ',' then
          match (jsonParsers fuel).2.1 r.tail with
          | some (xs, r3) => some (x :: xs, r3)
          | none => none
        else if r.headD ' ' = ']' then some ([x], r.tail)
        else none
      | none => none) := rfl

theorem jsonParsers_po_succ (fuel : Nat) (s : JStr) :
    (jsonParsers (fuel + 1)).2.2 s =
      (match s with
      | [] => none
      | c :: cs =>
        if c = '"' then
          match parseStrBody cs with
          | some (k, r) =>
            if r.headD ' ' = ':' then
              match (jsonParsers (fuel + 1)).1 r.tail with
              | some (v, r3) =>
                if r3.headD ' ' = ',' then
                  match (jsonParsers fuel).2.2 r3.tail with
                  | some (fs, r5) => some ((k, v) :: fs, r5)
                  | none => none
                else if r3.headD ' ' = '\x7d' then some ([(k, v)], r3.tail)
                else none
              | none => none
            else none
          | none => none
        else none) := rfl

theorem stringifyItems_cons_of_some {x : JVal} {sv0 : JStr} (xs : List JVal)
    (h : stringifyVal x = some sv0) :
    stringifyItems (x :: xs) = sv0 :: stringifyItems xs := by
  rw [show stringifyItems (x :: xs) =
    ((stringifyVal x).getD (js "null")) :: stringifyItems xs from rfl, h]
  rfl

theorem stringifyFields_cons_of_some {k : JStr} {v : JVal} {sv0 : JStr}
    (fs : List (JStr × JVal)) (h : stringifyVal v = some sv0) :
    stringifyFields ((k, v) :: fs) = (quoteJStr k ++ ':' :: sv0) :: stringifyFields fs := by
  rw [show stringifyFields ((k, v) :: fs) =
    (match stringifyVal v with
     | none => stringifyFields fs
     | some s => (quoteJStr k ++ ':' :: s) :: stringifyFields fs) from rfl, h]

theorem joinCommas_pair (x y : JStr) (l : List JStr) :
    joinCommas (x :: y :: l) = x ++ ',' :: joinCommas (y :: l) := rfl

theorem joinCommas_cons_of_ne {x : JStr} {l : List JStr} (h : l ≠ []) :
    joinCommas (x :: l) = x ++ ',' :: joinCommas l := by
  cases l with
  | nil => exact absurd rfl h
  | cons a b => rfl

theorem stringifyFields_eq_nil {fs : List (JStr × JVal)}
    (hreps : ∀ kv ∈ fs, Representable kv.2) (h : stringifyFields fs = []) : fs = [] := by
  cases fs with
  | nil => rfl
  | cons kv fs2 =>
    obtain ⟨k, v⟩ := kv
    obtain ⟨sv, hsv⟩ := stringify_total (hreps (k, v) (List.mem_cons_self _ _))
    rw [stringifyFields_cons_of_some fs2 hsv] at h
    cases h

theorem jsonParsers_round : ∀ fuel : Nat,
    (∀ (v : JVal) (sv rest : JStr), Representable v → stringifyVal v = some sv →
      restSafe rest = true → sv.length + rest.length < fuel →
      (jsonParsers fuel).1 (sv ++ rest) = some (v, rest)) ∧
    (∀ (xs : List JVal) (rest : JStr), (∀ x ∈ xs, Representable x) → xs ≠ [] →
      (joinCommas (stringifyItems xs)).length + 1 + rest.length < fuel →
      (jsonParsers fuel).2.1 (joinCommas (stringifyItems xs) ++ ']' :: rest) =
        some (xs, rest)) ∧
    (∀ (fs : List (JStr × JVal)) (rest : JStr), (∀ kv ∈ fs, Representable kv.2) → fs ≠ [] →
      (joinCommas (stringifyFields fs)).length + 1 + rest.length < fuel →
      (jsonParsers fuel).2.2 (joinCommas (stringifyFields fs) ++ '\x7d' :: rest) =
        some (fs, rest)) := by
  intro fuel
  induction fuel with
  | zero =>
    refine ⟨?_, ?_, ?_⟩
    · intro v sv rest _ _ _ h; exact absurd h (by omega)
    · intro xs rest _ _ h; exact absurd h (by omega)
    · intro fs rest _ _ h; exact absurd h (by omega)
  | succ f ih =>
    obtain ⟨ihP, ihA, ihO⟩ := ih
    have hP : ∀ (v : JVal) (sv rest : JStr), Representable v → stringifyVal v = some sv →
        restSafe rest = true → sv.length + rest.length < f + 1 →
        (jsonParsers (f + 1)).1 (sv ++ rest) = some (v, rest) := by
      intro v sv rest hrep hser hsafe hlen
      cases hrep with
      | null =>
        rw [show stringifyVal JVal.null = some (js "null") from rfl] at hser
        have hx := Option.some_injective _ hser
        subst hx
        rfl
      | bool b =>
        cases b
        · rw [show stringifyVal (JVal.bool false) = some (js "false") from rfl] at hser
          have hx := Option.some_injective _ hser
          subst hx
          rfl
        · rw [show stringifyVal (JVal.bool true) = some (js "true") from rfl] at hser
          have hx := Option.some_injective _ hser
          subst hx
          rfl
      | num n =>
        rw [show stringifyVal (JVal.num n) = some (intToStr n) from rfl] at hser
        have hx := Option.some_injective _ hser
        subst hx
        unfold intToStr
        by_cases hneg : n < 0
        · rw [if_pos hneg]
          rw [show ('-' :: natToStr n.natAbs) ++ rest = '-' :: (natToStr n.natAbs ++ rest)
            from rfl]
          rw [jsonParsers_pv_succ]
          dsimp only
          rw [if_neg (by decide), if_neg (by decide), if_neg (by decide),
            if_neg (by decide), if_neg (by decide), if_neg (by decide), if_pos rfl]
          rw [parseNatTok_natToStr n.natAbs rest hsafe]
          dsimp only
          rw [show (-(n.natAbs : Int)) = n from by omega]
        · rw [if_neg hneg]
          obtain ⟨h0, t0, he, hd⟩ := natToStr_cons n.toNat
          rw [he]
          rw [show (h0 :: t0) ++ rest = h0 :: (t0 ++ rest) from rfl]
          rw [jsonParsers_pv_succ]
          dsimp only
          rw [if_neg (ne_of_isDigit hd (by decide)), if_neg (ne_of_isDigit hd (by decide)),
            if_neg (ne_of_isDigit hd (by decide)), if_neg (ne_of_isDigit hd (by decide)),
            if_neg (ne_of_isDigit hd (by decide)), if_neg (ne_of_isDigit hd (by decide)),
            if_neg (ne_of_isDigit hd (by decide)), if_pos hd]
          rw [show h0 :: (t0 ++ rest) = natToStr n.toNat ++ rest from by rw [he]; rfl]
          rw [parseNatTok_natToStr n.toNat rest hsafe]
          dsimp only
          rw [show ((n.toNat : Int)) = n from by omega]
      | str s =>
        rw [show stringifyVal (JVal.str s) = some (quoteJStr s) from rfl] at hser
        have hx := Option.some_injective _ hser
        subst hx
        rw [show quoteJStr s ++ rest = '"' :: (s.flatMap escChar ++ '"' :: rest) from by
          simp [quoteJStr]]
        rw [jsonParsers_pv_succ]
        dsimp only
        rw [if_pos rfl, parseStrBody_quote s rest]
      | arr xs hxs =>
        rw [show stringifyVal (JVal.arr xs) =
          some ('[' :: joinCommas (stringifyItems xs) ++ [']']) from rfl] at hser
        have hx := Option.some_injective _ hser
        subst hx
        cases xs with
        | nil => rfl
        | cons x xs' =>
          obtain ⟨sv0, hser0⟩ := stringify_total (hxs x (List.mem_cons_self x xs'))
          obtain ⟨hh, ht, hsv0, hhne⟩ :=
            stringify_head_ne_rbracket (hxs x (List.mem_cons_self x xs')) hser0
          rw [show ('[' :: joinCommas (stringifyItems (x :: xs')) ++ [']']) ++ rest =
            '[' :: (joinCommas (stringifyItems (x :: xs')) ++ ']' :: rest) from by
            simp]
          rw [jsonParsers_pv_succ]
          dsimp only
          rw [if_neg (by decide), if_pos rfl]
          have hhead : (joinCommas (stringifyItems (x :: xs')) ++ ']' :: rest).headD ' ' =
              hh := by
            rw [stringifyItems_cons_of_some xs' hser0]
            cases hI : stringifyItems xs' with
            | nil => rw [show joinCommas [sv0] = sv0 from rfl, hsv0]; rfl
            | cons i0 is => rw [joinCommas_pair, hsv0]; rfl
          rw [if_neg (by rw [hhead]; exact hhne)]
          rw [ihA (x :: xs') rest hxs (by simp) (by
            simp only [List.length_append, List.length_cons, List.length_nil] at hlen
            omega)]
      | obj fs hfs =>
        rw [show stringifyVal (JVal.obj fs) =
          some ('\x7b' :: joinCommas (stringifyFields fs) ++ ['\x7d']) from rfl] at hser
        have hx := Option.some_injective _ hser
        subst hx
        cases fs with
        | nil => rfl
        | cons kv fs' =>
          obtain ⟨k, v0⟩ := kv
          obtain ⟨sv0, hser0⟩ := stringify_total (hfs (k, v0) (List.mem_cons_self _ fs'))
          rw [show ('\x7b' :: joinCommas (stringifyFields ((k, v0) :: fs')) ++ ['\x7d']) ++
              rest =
            '\x7b' :: (joinCommas (stringifyFields ((k, v0) :: fs')) ++ '\x7d' :: rest)
            from by simp]
          rw [jsonParsers_pv_succ]
          dsimp only
          rw [if_neg (by decide), if_neg (by decide), if_pos rfl]
          have hhead : (joinCommas (stringifyFields ((k, v0) :: fs')) ++
              '\x7d' :: rest).headD ' ' = '"' := by
            rw [stringifyFields_cons_of_some fs' hser0]
            cases hI : stringifyFields fs' with
            | nil =>
              rw [show joinCommas [quoteJStr k ++ ':' :: sv0] = quoteJStr k ++ ':' :: sv0
                from rfl]
              rfl
            | cons f0 fselse => rw [joinCommas_pair]; rfl
          rw [if_neg (by rw [hhead]; decide)]
          rw [ihO ((k, v0) :: fs') rest hfs (by simp) (by
            simp only [List.length_append, List.length_cons, List.length_nil] at hlen
            omega)]
    have hA : ∀ (xs : List JVal) (rest : JStr), (∀ x ∈ xs, Representable x) → xs ≠ [] →
        (joinCommas (stringifyItems xs)).length + 1 + rest.length < f + 1 →
        (jsonParsers (f + 1)).2.1 (joinCommas (stringifyItems xs) ++ ']' :: rest) =
          some (xs, rest) := by
      intro xs rest hreps hne hlen
      cases xs with
      | nil => exact absurd rfl hne
      | cons x xs' =>
        obtain ⟨sv0, hser0⟩ := stringify_total (hreps x (List.mem_cons_self x xs'))
        rw [stringifyItems_cons_of_some xs' hser0] at hlen ⊢
        rw [jsonParsers_pa_succ]
        cases xs' with
        | nil =>
          rw [show stringifyItems ([] : List JVal) = [] from rfl] at hlen ⊢
          rw [show joinCommas [sv0] = sv0 from rfl] at hlen ⊢
          rw [hP x sv0 (']' :: rest) (hreps x (List.mem_cons_self x []))
            hser0 rfl (by
              simp only [List.length_cons] at hlen ⊢
              omega)]
          rfl
        | cons y ys =>
          have hne' : stringifyItems (y :: ys) ≠ [] := by
            rw [show stringifyItems (y :: ys) =
              ((stringifyVal y).getD (js "null")) :: stringifyItems ys from rfl]
            simp
          rw [joinCommas_cons_of_ne hne'] at hlen ⊢
          rw [show (sv0 ++ ',' :: joinCommas (stringifyItems (y :: ys))) ++ ']' :: rest =
            sv0 ++ (',' :: (joinCommas (stringifyItems (y :: ys)) ++ ']' :: rest)) from by
            simp]
          have hlen0 : 1 ≤ sv0.length := by
            cases hsv : sv0 with
            | nil => exact absurd hsv (stringify_ne_nil hser0)
            | cons a b => simp
          rw [hP x sv0 (',' :: (joinCommas (stringifyItems (y :: ys)) ++ ']' :: rest))
            (hreps x (List.mem_cons_self x (y :: ys)))
            hser0 rfl (by
              simp only [List.length_append, List.length_cons] at hlen ⊢
              omega)]
          show (match (jsonParsers f).2.1 (joinCommas (stringifyItems (y :: ys)) ++
              ']' :: rest) with
            | some (xs, r3) => some (x :: xs, r3)
            | none => none) = some (x :: y :: ys, rest)
          rw [ihA (y :: ys) rest (fun z hz => hreps z (List.mem_cons_of_mem x hz))
            (by simp) (by
              simp only [List.length_append, List.length_cons] at hlen ⊢
              omega)]
    have hO : ∀ (fs : List (JStr × JVal)) (rest : JStr), (∀ kv ∈ fs, Representable kv.2) →
        fs ≠ [] →
        (joinCommas (stringifyFields fs)).length + 1 + rest.length < f + 1 →
        (jsonParsers (f + 1)).2.2 (joinCommas (stringifyFields fs) ++ '\x7d' :: rest) =
          some (fs, rest) := by
      intro fs rest hreps hne hlen
      cases fs with
      | nil => exact absurd rfl hne
      | cons kv fs' =>
        obtain ⟨k, v0⟩ := kv
        obtain ⟨sv0, hser0⟩ := stringify_total (hreps (k, v0) (List.mem_cons_self _ fs'))
        rw [stringifyFields_cons_of_some fs' hser0] at hlen ⊢
        have hqk : quoteJStr k = '"' :: (k.flatMap escChar ++ ['"']) := rfl
        have hqklen : 2 ≤ (quoteJStr k).length := by
          rw [hqk]
          simp
        cases hF : stringifyFields fs' with
        | nil =>
          rw [hF] at hlen
          have hfs2 : fs' = [] := stringifyFields_eq_nil
            (fun z hz => hreps z (List.mem_cons_of_mem (k, v0) hz)) hF
          subst hfs2
          rw [show joinCommas [quoteJStr k ++ ':' :: sv0] = quoteJStr k ++ ':' :: sv0
            from rfl] at hlen ⊢
          rw [show (quoteJStr k ++ ':' :: sv0) ++ '\x7d' :: rest =
            '"' :: (k.flatMap escChar ++ '"' :: (':' :: (sv0 ++ '\x7d' :: rest))) from by
            rw [hqk]
            simp]
          rw [jsonParsers_po_succ]
          try dsimp only
          rw [parseStrBody_quote k (':' :: (sv0 ++ '\x7d' :: rest))]
          dsimp only
          rw [if_pos (rfl : ('"' : Char) = '"')]
          rw [if_pos (show (':' :: (sv0 ++ '\x7d' :: rest)).headD ' ' = ':' from rfl)]
          rw [show (':' :: (sv0 ++ '\x7d' :: rest)).tail = sv0 ++ '\x7d' :: rest from rfl]
          rw [hP v0 sv0 ('\x7d' :: rest) (hreps (k, v0) (List.mem_cons_self _ _))
            hser0 rfl (by
              simp only [List.length_append, List.length_cons] at hlen ⊢
              omega)]
          rfl
        | cons f0 fselse =>
          rw [hF] at hlen
          rw [joinCommas_pair] at hlen ⊢
          rw [show ((quoteJStr k ++ ':' :: sv0) ++ ',' :: joinCommas (f0 :: fselse)) ++
              '\x7d' :: rest =
            '"' :: (k.flatMap escChar ++ '"' :: (':' :: (sv0 ++ (',' ::
              (joinCommas (f0 :: fselse) ++ '\x7d' :: rest))))) from by
            rw [hqk]
            simp]
          rw [jsonParsers_po_succ]
          try dsimp only
          rw [parseStrBody_quote k (':' :: (sv0 ++ (',' ::
            (joinCommas (f0 :: fselse) ++ '\x7d' :: rest))))]
          dsimp only
          rw [if_pos (rfl : ('"' : Char) = '"')]
          rw [if_pos (show (':' :: (sv0 ++ (',' :: (joinCommas (f0 :: fselse) ++
            '\x7d' :: rest)))).headD ' ' = ':' from rfl)]
          rw [show (':' :: (sv0 ++ (',' :: (joinCommas (f0 :: fselse) ++
            '\x7d' :: rest)))).tail = sv0 ++ (',' :: (joinCommas (f0 :: fselse) ++
            '\x7d' :: rest)) from rfl]
          rw [hP v0 sv0 (',' :: (joinCommas (f0 :: fselse) ++ '\x7d' :: rest))
            (hreps (k, v0) (List.mem_cons_self _ fs')) hser0 rfl (by
              simp only [List.length_append, List.length_cons] at hlen ⊢
              omega)]
          show (match (jsonParsers f).2.2 (joinCommas (f0 :: fselse) ++ '\x7d' :: rest) with
            | some (fs, r5) => some ((k, v0) :: fs, r5)
            | none => none) = some ((k, v0) :: fs', rest)
          rw [show joinCommas (f0 :: fselse) = joinCommas (stringifyFields fs') from by
            rw [hF]]
          rw [ihO fs' rest (fun z hz => hreps z (List.mem_cons_of_mem (k, v0) hz))
            (by
              intro hnil
              rw [hnil, show stringifyFields [] = [] from rfl] at hF
              cases hF) (by
              rw [hF]
              simp only [List.length_append, List.length_cons] at hlen ⊢
              omega)]
    exact ⟨hP, hA, hO⟩

/-- The JSON round trip: parsing a stringified representable value restores
it exactly. -/
theorem jsonParse_stringify {v : JVal} {sv : JStr} (hrep : Representable v)
    (hser : stringifyVal v = some sv) : jsonParse sv = some v := by
  unfold jsonParse
  have h := (jsonParsers_round (sv.length + 1)).1 v sv [] hrep hser rfl (by simp)
  rw [List.append_nil] at h
  rw [h]

theorem JVal.isUndef_eq_true {v : JVal} (h : v.isUndef = true) : v = .undef := by
  cases v <;> first | rfl | simp [JVal.isUndef] at h

theorem Representable.isUndef_eq_false {v : JVal} (h : Representable v) :
    v.isUndef = false := by
  cases h <;> rfl

theorem jvalToHost_obj_of_serialized {fs : List (JStr × JVal)}
    (h : isSerializedValue (.obj fs) = true) : ∃ w, jvalToHost (.obj fs) = some w := by
  unfold isSerializedValue at h
  simp only [Bool.and_eq_true] at h
  obtain ⟨⟨hx, hy⟩, hz⟩ := h
  unfold isNumField at hx hy hz
  cases hgx : getField fs (js "x") <;> rw [hgx] at hx <;> try simp at hx
  cases hgy : getField fs (js "y") <;> rw [hgy] at hy <;> try simp at hy
  cases hgz : getField fs (js "z") <;> rw [hgz] at hz <;> try simp at hz
  rename_i a b c
  refine ⟨SVal.vec a b c, ?_⟩
  show (match getField fs (js "x"), getField fs (js "y"), getField fs (js "z") with
    | JVal.num x, JVal.num y, JVal.num z => some (SVal.vec x y z)
    | _, _, _ => none) = some (SVal.vec a b c)
  rw [hgx, hgy, hgz]

namespace DynamicProperty

/-- A successful (non-throwing) `set`: when the value is not the delete
sentinel and the serializer result passes the guard, nothing is thrown. -/
theorem set_snd_eq_none {o : Owner} {id : JStr} {value : JVal} {opts : SetOpts}
    (hu : value.isUndef = false)
    (hser : isSerializedValueE
      ((opts.serialize.getD defaultSerialize) value (getNamespacedId opts.ns id)) =
      .ok true) :
    (set o id value opts).2 = none := by
  cases hs : (opts.serialize.getD defaultSerialize) value (getNamespacedId opts.ns id) with
  | str s => rw [set_eq_of_str hu hs]
  | undef => rw [set_eq_of_scalar hu hs rfl (by rw [← hs]; exact hser)]
  | null => rw [hs] at hser; simp [isSerializedValueE] at hser
  | bool b => rw [set_eq_of_scalar hu hs rfl (by rw [← hs]; exact hser)]
  | num n => rw [set_eq_of_scalar hu hs rfl (by rw [← hs]; exact hser)]
  | arr xs => rw [hs] at hser; simp [isSerializedValueE, isSerializedValue] at hser
  | obj fs => rw [set_eq_of_scalar hu hs rfl (by rw [← hs]; exact hser)]

/-- The number of chunks a `set` call leaves for the id, as a function of
the value and the serializer result (a proof artifact). -/
def newChunkCount (value : JVal) (serialized : JVal) : Nat :=
  if value.isUndef then 0
  else
    match serialized with
    | .str s => (chunkString s).length
    | .undef => 0
    | _ => 1

/-- One window step of the chunking loop on a nonempty string. -/
theorem chunkWindows_step (m fuel : Nat) (s : JStr) (hs : s ≠ []) :
    chunkWindows m (fuel + 1) s = s.take m :: chunkWindows m fuel (s.drop m) := by
  cases s with
  | nil => exact absurd rfl hs
  | cons c cs => rfl

theorem chunkWindows_nil (m fuel : Nat) : chunkWindows m fuel [] = [] := by
  cases fuel <;> rfl

end DynamicProperty

theorem encodeURI_replicate {c : Char} (hc : encodeURIChar c = [c]) (n : Nat) :
    encodeURI (List.replicate n c) = List.replicate n c := by
  induction n with
  | zero => rfl
  | succ k ih =>
    rw [List.replicate_succ]
    show encodeURIChar c ++ encodeURI (List.replicate k c) = c :: List.replicate k c
    rw [hc, ih]
    rfl

/-- The four host-store primitive kinds named by the spec's error clause:
boolean, number, string, or 3-component numeric vector (`undefined` is not
one of them). -/
def isHostPrimitive : JVal → Bool
  | .bool _ => true
  | .num _ => true
  | .str _ => true
  | .obj fs => isNumField fs (js "x") && isNumField fs (js "y") && isNumField fs (js "z")
  | _ => false

/-! ## The claims -/

namespace DynamicProperty

/-- When no host key matches the chunk pattern, the chunk-key sequence is
empty. -/
theorem getChunkPropertyIds_eq_nil {o : Owner} {fullId : JStr}
    (h : o.propIds.filter (matchesChunkPattern fullId) = []) :
    getChunkPropertyIds o fullId = [] := by
  unfold getChunkPropertyIds
  rw [h]
  rfl

/-- C1 (corrected).  The round trip `get` after `set` with the default
serializer/deserializer and the same namespace on both calls returns the
value exactly — PROVIDED the owner's prior physical chunk keys for the
logical id form a canonical contiguous run `0..m-1` (as every state
produced by this engine's own writes does).  Without that hypothesis the
claim is false: see the counterexample, where a foreign host key
`"a_00"` that matches the chunk pattern corrupts reassembly. -/
theorem claim_C1 {o : Owner} (id : JStr) (ns : Option JStr) {value : JVal} {m : Nat}
    (hWF : o.WF) (hrep : Representable value)
    (hprev : (o.propIds.filter (matchesChunkPattern (getNamespacedId ns id))).Perm
      (chunkRun (getNamespacedId ns id) m)) :
    (set o id value (SetOpts.mk ns none)).2 = none ∧
    get (set o id value (SetOpts.mk ns none)).1 id (GetOpts.mk ns none) =
      .ok value := by
  obtain ⟨sv, hsv⟩ := stringify_total hrep
  have hundef : value.isUndef = false := hrep.isUndef_eq_false
  have hser : ((SetOpts.mk ns none).serialize.getD defaultSerialize) value
      (getNamespacedId (SetOpts.mk ns none).ns id) = .str sv := by
    show defaultSerialize value (getNamespacedId ns id) = .str sv
    unfold defaultSerialize
    rw [hsv]
  have hprevEq : getChunkPropertyIds o (getNamespacedId ns id) =
      chunkRun (getNamespacedId ns id) m := getChunkPropertyIds_eq_run hprev
  have hset : set o id value (SetOpts.mk ns none) =
      (deleteFrom (writeChunks o (getNamespacedId ns id) 0 (chunkString sv))
        (chunkRun (getNamespacedId ns id) m) (chunkString sv).length, none) := by
    rw [← hprevEq]
    exact set_eq_of_str hundef hser
  have hne : chunkString sv ≠ [] := by
    rw [Ne, chunkString_eq_nil_iff, encodeURI_eq_nil_iff]
    exact stringify_ne_nil hsv
  have hn : 0 < (chunkString sv).length := List.length_pos.mpr hne
  have hids : getChunkPropertyIds
      (deleteFrom (writeChunks o (getNamespacedId ns id) 0 (chunkString sv))
        (chunkRun (getNamespacedId ns id) m) (chunkString sv).length)
      (getNamespacedId ns id) =
      chunkRun (getNamespacedId ns id) (chunkString sv).length :=
    getChunkPropertyIds_eq_run (filter_matching_after_writes hWF hprev)
  have hvals : ∀ j, j < (chunkString sv).length →
      (deleteFrom (writeChunks o (getNamespacedId ns id) 0 (chunkString sv))
        (chunkRun (getNamespacedId ns id) m) (chunkString sv).length).getProp
        (getChunkPropertyId (getNamespacedId ns id) j) =
        some (.str ((chunkString sv).getD j [])) :=
    fun j hj => getProp_after_writes hj
  have hget := @get_of_run _ id (GetOpts.mk ns none) (chunkString sv).length
    (chunkString sv) hids hn rfl hvals
  rw [flatten_chunkString, decodeURI_encodeURI] at hget
  have hparse : jsonParse sv = some value := jsonParse_stringify hrep hsv
  have hfinal : get (deleteFrom (writeChunks o (getNamespacedId ns id) 0 (chunkString sv))
      (chunkRun (getNamespacedId ns id) m) (chunkString sv).length) id (GetOpts.mk ns none) =
      .ok value := by
    rw [hget]
    show (match jsonParse sv with
      | some j => Except.ok j
      | none => Except.error JsErr.jsonSyntax) = Except.ok value
    rw [hparse]
  refine ⟨?_, ?_⟩
  · rw [hset]
  · rw [hset]
    exact hfinal

/-- Witness for C1 at a concrete input: a fresh owner, id `"a"`, value `5`. -/
theorem claim_C1_witness :
    (set (Owner.mk []) (js "a") (JVal.num 5) (SetOpts.mk none none)).2 = none ∧
    get (set (Owner.mk []) (js "a") (JVal.num 5) (SetOpts.mk none none)).1 (js "a")
      (GetOpts.mk none none) = .ok (JVal.num 5) :=
  @claim_C1 (Owner.mk []) (js "a") none (JVal.num 5) 0
    (by unfold Owner.WF; decide) (Representable.num 5) (by decide)

/-- Counterexample to C1 as stated: on an owner holding a foreign key
`"a_00"` (which matches the chunk pattern of id `"a"` with parsed index
`0`), `set` succeeds but `get` does not return the value — reassembly
concatenates the foreign chunk with the written one and `JSON.parse`
fails. -/
theorem claim_C1_cx :
    (set (Owner.mk [(js "a_00", SVal.str (js "x"))]) (js "a") (JVal.num 5)
      (SetOpts.mk none none)).2 = none ∧
    get (set (Owner.mk [(js "a_00", SVal.str (js "x"))]) (js "a") (JVal.num 5)
      (SetOpts.mk none none)).1 (js "a") (GetOpts.mk none none) ≠ .ok (JVal.num 5) := by
  refine ⟨rfl, ?_⟩
  intro h
  have h2 : (Except.error JsErr.jsonSyntax : Except JsErr JVal) = .ok (JVal.num 5) := h
  exact Except.noConfusion h2

/-- The owner state after the two namespaced writes of claim C2. -/
def nsOwner2 : Owner :=
  (set (set (Owner.mk []) (js "a") (JVal.num 1) (SetOpts.mk (some (js "ns1")) none)).1
    (js "a") (JVal.num 2) (SetOpts.mk (some (js "ns2")) none)).1

/-- C2 (corrected).  After `set(owner,"a",1,ns1)` and `set(owner,"a",2,ns2)`
on a fresh owner the two logical properties occupy the disjoint physical
keys `"ns1:a_0"` and `"ns2:a_0"`, and each value is retrievable only under
its own namespace — but `ids(owner, ns1)` yields `["ns1:a"]`, the
fully-qualified id, not `["a"]` as the claim states (`ids` never strips
the namespace prefix). -/
theorem claim_C2 :
    getChunkPropertyIds nsOwner2 (js "ns1:a") = [js "ns1:a_0"] ∧
    getChunkPropertyIds nsOwner2 (js "ns2:a") = [js "ns2:a_0"] ∧
    get nsOwner2 (js "a") (GetOpts.mk (some (js "ns1")) none) = .ok (JVal.num 1) ∧
    get nsOwner2 (js "a") (GetOpts.mk (some (js "ns2")) none) = .ok (JVal.num 2) ∧
    get nsOwner2 (js "a") (GetOpts.mk none none) = .ok .undef ∧
    ids nsOwner2 (some (js "ns1")) = [js "ns1:a"] :=
  ⟨rfl, rfl, rfl, rfl, rfl, rfl⟩

/-- Counterexample to C2 as stated: `ids` under namespace `ns1` does not
yield `["a"]`. -/
theorem claim_C2_cx : ids nsOwner2 (some (js "ns1")) ≠ [js "a"] := by
  intro h
  have h2 : ([js "ns1:a"] : List JStr) = [js "a"] := h
  exact absurd h2 (by decide)

/-- C3 (code bug).  `values` (and `entries`) pass the fully-qualified ids
yielded by `ids()` back into `get` together with the same namespace
option, so `get` prefixes the namespace a second time (`"ns1:ns1:a"`) and
finds nothing: after `set(owner,"a",1,ns1)` the stored value is `1` and
`get` returns it, yet `values(owner, ns1)` yields the absent sentinel. -/
theorem claim_C3 :
    values (set (Owner.mk []) (js "a") (JVal.num 1)
        (SetOpts.mk (some (js "ns1")) none)).1
      (GetOpts.mk (some (js "ns1")) none) = [.ok .undef] ∧
    get (set (Owner.mk []) (js "a") (JVal.num 1)
        (SetOpts.mk (some (js "ns1")) none)).1
      (js "a") (GetOpts.mk (some (js "ns1")) none) = .ok (JVal.num 1) ∧
    entries (set (Owner.mk []) (js "a") (JVal.num 1)
        (SetOpts.mk (some (js "ns1")) none)).1
      (GetOpts.mk (some (js "ns1")) none) = [(js "ns1:a", .ok .undef)] :=
  ⟨rfl, rfl, rfl⟩

/-- C4 (confirmed).  If the physical chunk keys of the namespaced id form
a contiguous run `0..m-1` before the call, then after `delete` no chunk
key remains (the run `0..-1`), and after any non-throwing `set` the chunk
keys are exactly the contiguous run `0..n-1` where `n` is the new chunk
count (`newChunkCount`): the window count for a string serialization, `1`
for a scalar, `0` when the value is the delete sentinel or the serializer
returned `undefined`.  In particular no stale high-index chunk survives a
shrinking rewrite. -/
theorem claim_C4 {o : Owner} (id : JStr) (ns : Option JStr) {m : Nat}
    (hWF : o.WF)
    (hprev : (o.propIds.filter (matchesChunkPattern (getNamespacedId ns id))).Perm
      (chunkRun (getNamespacedId ns id) m)) :
    getChunkPropertyIds (deleteProp o id ns) (getNamespacedId ns id) =
      chunkRun (getNamespacedId ns id) 0 ∧
    ∀ (value : JVal) (sopts : Option Serializer),
      (set o id value (SetOpts.mk ns sopts)).2 = none →
      getChunkPropertyIds (set o id value (SetOpts.mk ns sopts)).1 (getNamespacedId ns id) =
        chunkRun (getNamespacedId ns id)
          (newChunkCount value
            ((sopts.getD defaultSerialize) value (getNamespacedId ns id))) := by
  have hdel : getChunkPropertyIds (deleteProp o id ns) (getNamespacedId ns id) =
      chunkRun (getNamespacedId ns id) 0 :=
    getChunkPropertyIds_eq_nil (filter_matching_after_delete o id ns)
  refine ⟨hdel, ?_⟩
  intro value sopts hok
  cases hu : value.isUndef with
  | true =>
    have hv := JVal.isUndef_eq_true hu
    subst hv
    exact hdel
  | false =>
    cases hE : isSerializedValueE
        ((sopts.getD defaultSerialize) value (getNamespacedId ns id)) with
    | error e =>
      exfalso
      have herr : isSerializedValueE (((SetOpts.mk ns sopts).serialize.getD defaultSerialize)
          value (getNamespacedId (SetOpts.mk ns sopts).ns id)) = .error e := hE
      have h2 := congrArg Prod.snd (@set_eq_of_err o id value (SetOpts.mk ns sopts) e hu herr)
      rw [hok] at h2
      exact Option.noConfusion h2
    | ok b =>
      cases b with
      | false =>
        exfalso
        have hbad : isSerializedValueE (((SetOpts.mk ns sopts).serialize.getD defaultSerialize)
            value (getNamespacedId (SetOpts.mk ns sopts).ns id)) = .ok false := hE
        have h2 := congrArg Prod.snd (@set_eq_of_bad o id value (SetOpts.mk ns sopts) hu hbad)
        rw [hok] at h2
        exact Option.noConfusion h2
      | true =>
        have hprevEq : getChunkPropertyIds o (getNamespacedId ns id) =
            chunkRun (getNamespacedId ns id) m := getChunkPropertyIds_eq_run hprev
        cases hsv : (sopts.getD defaultSerialize) value (getNamespacedId ns id) with
        | str s =>
          have hserS : ((SetOpts.mk ns sopts).serialize.getD defaultSerialize) value
              (getNamespacedId (SetOpts.mk ns sopts).ns id) = .str s := hsv
          have hset := @set_eq_of_str o id value (SetOpts.mk ns sopts) s hu hserS
          have hstate : (set o id value (SetOpts.mk ns sopts)).1 =
              deleteFrom (writeChunks o (getNamespacedId ns id) 0 (chunkString s))
                (chunkRun (getNamespacedId ns id) m) (chunkString s).length := by
            rw [← hprevEq]
            exact congrArg Prod.fst hset
          rw [hstate]
          rw [show newChunkCount value (JVal.str s) = (chunkString s).length from by
            unfold newChunkCount; rw [hu]; rfl]
          exact getChunkPropertyIds_eq_run (filter_matching_after_writes hWF hprev)
        | undef =>
          have hserS : ((SetOpts.mk ns sopts).serialize.getD defaultSerialize) value
              (getNamespacedId (SetOpts.mk ns sopts).ns id) = .undef := hsv
          have hset := @set_eq_of_scalar o id value (SetOpts.mk ns sopts) JVal.undef
            hu hserS rfl rfl
          have hstate : (set o id value (SetOpts.mk ns sopts)).1 =
              deleteFrom (setChunk o (getNamespacedId ns id) 0 none)
                (chunkRun (getNamespacedId ns id) m) 1 := by
            rw [← hprevEq]
            exact congrArg Prod.fst hset
          rw [hstate]
          rw [show newChunkCount value JVal.undef = 0 from by
            unfold newChunkCount; rw [hu]; rfl]
          exact getChunkPropertyIds_eq_nil (filter_matching_after_scalar_undef hprev)
        | bool b =>
          have hserS : ((SetOpts.mk ns sopts).serialize.getD defaultSerialize) value
              (getNamespacedId (SetOpts.mk ns sopts).ns id) = .bool b := hsv
          have hset := @set_eq_of_scalar o id value (SetOpts.mk ns sopts) (JVal.bool b)
            hu hserS rfl rfl
          have hstate : (set o id value (SetOpts.mk ns sopts)).1 =
              deleteFrom (setChunk o (getNamespacedId ns id) 0 (some (SVal.bool b)))
                (chunkRun (getNamespacedId ns id) m) 1 := by
            rw [← hprevEq]
            exact congrArg Prod.fst hset
          rw [hstate]
          rw [show newChunkCount value (JVal.bool b) = 1 from by
            unfold newChunkCount; rw [hu]; rfl]
          exact getChunkPropertyIds_eq_run (filter_matching_after_scalar hWF hprev)
        | num n =>
          have hserS : ((SetOpts.mk ns sopts).serialize.getD defaultSerialize) value
              (getNamespacedId (SetOpts.mk ns sopts).ns id) = .num n := hsv
          have hset := @set_eq_of_scalar o id value (SetOpts.mk ns sopts) (JVal.num n)
            hu hserS rfl rfl
          have hstate : (set o id value (SetOpts.mk ns sopts)).1 =
              deleteFrom (setChunk o (getNamespacedId ns id) 0 (some (SVal.num n)))
                (chunkRun (getNamespacedId ns id) m) 1 := by
            rw [← hprevEq]
            exact congrArg Prod.fst hset
          rw [hstate]
          rw [show newChunkCount value (JVal.num n) = 1 from by
            unfold newChunkCount; rw [hu]; rfl]
          exact getChunkPropertyIds_eq_run (filter_matching_after_scalar hWF hprev)
        | null =>
          rw [hsv] at hE
          rw [show isSerializedValueE JVal.null = Except.error JsErr.typeError from rfl] at hE
          exact Except.noConfusion hE
        | arr xs =>
          rw [hsv] at hE
          rw [show isSerializedValueE (JVal.arr xs) = Except.ok false from rfl] at hE
          injection hE with h
          exact Bool.noConfusion h
        | obj fs =>
          rw [hsv] at hE
          rw [show isSerializedValueE (JVal.obj fs) =
            Except.ok (isSerializedValue (JVal.obj fs)) from rfl] at hE
          have hser2 : isSerializedValue (JVal.obj fs) = true := Except.ok.inj hE
          obtain ⟨w, hw⟩ := jvalToHost_obj_of_serialized hser2
          have hserS : ((SetOpts.mk ns sopts).serialize.getD defaultSerialize) value
              (getNamespacedId (SetOpts.mk ns sopts).ns id) = .obj fs := hsv
          have hset := @set_eq_of_scalar o id value (SetOpts.mk ns sopts) (JVal.obj fs)
            hu hserS rfl (by rw [show isSerializedValueE (JVal.obj fs) =
              Except.ok (isSerializedValue (JVal.obj fs)) from rfl, hser2])
          have hstate : (set o id value (SetOpts.mk ns sopts)).1 =
              deleteFrom (setChunk o (getNamespacedId ns id) 0 (some w))
                (chunkRun (getNamespacedId ns id) m) 1 := by
            rw [← hprevEq, ← hw]
            exact congrArg Prod.fst hset
          rw [hstate]
          rw [show newChunkCount value (JVal.obj fs) = 1 from by
            unfold newChunkCount; rw [hu]; rfl]
          exact getChunkPropertyIds_eq_run (filter_matching_after_scalar hWF hprev)

/-- Witness for C4 at a concrete input: one prior chunk (`m = 1`), then a
delete and a scalar rewrite. -/
theorem claim_C4_witness :
    getChunkPropertyIds (deleteProp (Owner.mk [(js "a_0", SVal.str (js "x"))]) (js "a") none)
      (js "a") = chunkRun (js "a") 0 ∧
    getChunkPropertyIds
      (set (Owner.mk [(js "a_0", SVal.str (js "x"))]) (js "a") (JVal.num 7)
        (SetOpts.mk none none)).1 (js "a") =
      chunkRun (js "a")
        (newChunkCount (JVal.num 7)
          (((none : Option Serializer).getD defaultSerialize) (JVal.num 7) (js "a"))) :=
  ⟨(@claim_C4 (Owner.mk [(js "a_0", SVal.str (js "x"))]) (js "a") none 1
      (by unfold Owner.WF; decide) (by decide)).1,
   (@claim_C4 (Owner.mk [(js "a_0", SVal.str (js "x"))]) (js "a") none 1
      (by unfold Owner.WF; decide) (by decide)).2 (JVal.num 7) none rfl⟩

/-- C5 (confirmed).  The chunk-key sequence is exactly the host keys
matching the chunk pattern, ordered ascending by the integer parsed after
the last separator; concretely, `"id_2"` sorts before `"id_10"` whatever
order the host lists them in. -/
theorem claim_C5 (o : Owner) (fullId : JStr) :
    (getChunkPropertyIds o fullId).Perm
      (o.propIds.filter (matchesChunkPattern fullId)) ∧
    (getChunkPropertyIds o fullId).Pairwise
      (fun a b => chunkIdNum a ≤ chunkIdNum b) ∧
    getChunkPropertyIds
      (Owner.mk [(js "id_10", SVal.str (js "b")), (js "id_2", SVal.str (js "a"))])
      (js "id") = [js "id_2", js "id_10"] :=
  ⟨getChunkPropertyIds_perm o fullId, getChunkPropertyIds_sorted o fullId, rfl⟩

/-- C6 (corrected).  The segmentation percent-escapes the payload and
yields fixed windows of at most `MAX_CHUNK_SIZE` units whose concatenation
is the escaped string, and the reverse transform after full reassembly
restores the payload exactly — but the windows are cut at fixed offsets
with no regard for escape triplets, so a triplet CAN be split across two
chunks (see the counterexample); the round trip still holds because the
decode runs only after concatenation. -/
theorem claim_C6 (s : JStr) :
    (chunkString s).flatten = encodeURI s ∧
    (∀ c ∈ chunkString s, c.length ≤ MAX_CHUNK_SIZE) ∧
    decodeURI (encodeURI s) = some s :=
  ⟨flatten_chunkString s, fun c hc => length_le_chunkString s c hc, decodeURI_encodeURI s⟩

/-- Counterexample to C6's "never splits an escape triplet": for 32766
ASCII characters followed by `'é'` (escaped to the six units `"%C3%A9"`),
the first window ends exactly on the `'%'` opening a triplet. -/
theorem claim_C6_cx :
    (chunkString (List.replicate 32766 'a' ++ ['é'])).length = 2 ∧
    ((chunkString (List.replicate 32766 'a' ++ ['é'])).headD []).getLast? = some '%' := by
  have ha : encodeURIChar 'a' = ['a'] := by decide
  have htail : (js "%C3%A9").length = 6 := rfl
  have henc : encodeURI (List.replicate 32766 'a' ++ ['é']) =
      List.replicate 32766 'a' ++ js "%C3%A9" := by
    rw [show encodeURI (List.replicate 32766 'a' ++ ['é']) =
        encodeURI (List.replicate 32766 'a') ++ encodeURI ['é'] from
      List.flatMap_append _ _ _]
    rw [encodeURI_replicate ha 32766]
    rw [show encodeURI ['é'] = js "%C3%A9" from by decide]
  have hne0 : List.replicate 32766 'a' ++ js "%C3%A9" ≠ [] := by
    intro h
    have h2 := congrArg List.length h
    rw [List.length_append, List.length_replicate, htail] at h2
    exact absurd h2 (by decide)
  have hchunks : chunkString (List.replicate 32766 'a' ++ ['é']) =
      [List.replicate 32766 'a' ++ ['%'], js "C3%A9"] := by
    unfold chunkString
    dsimp only
    rw [henc, List.length_append, List.length_replicate, htail]
    rw [show (32766 + 6 : Nat) = 32771 + 1 from by decide]
    rw [chunkWindows_step _ _ _ hne0]
    rw [List.take_append_eq_append_take, List.drop_append_eq_append_drop]
    rw [List.take_of_length_le (show (List.replicate 32766 'a').length ≤ MAX_CHUNK_SIZE from by
      rw [List.length_replicate]; decide)]
    rw [List.drop_eq_nil_of_le (show (List.replicate 32766 'a').length ≤ MAX_CHUNK_SIZE from by
      rw [List.length_replicate]; decide)]
    rw [List.length_replicate, List.nil_append]
    rw [show MAX_CHUNK_SIZE - 32766 = 1 from by decide]
    rw [show (js "%C3%A9").take 1 = ['%'] from rfl]
    rw [show (js "%C3%A9").drop 1 = js "C3%A9" from rfl]
    rw [show (32771 : Nat) = 32770 + 1 from by decide]
    rw [chunkWindows_step _ _ _ (by decide)]
    rw [List.take_of_length_le (show (js "C3%A9").length ≤ MAX_CHUNK_SIZE from by decide)]
    rw [List.drop_eq_nil_of_le (show (js "C3%A9").length ≤ MAX_CHUNK_SIZE from by decide)]
    rw [chunkWindows_nil]
  rw [hchunks]
  refine ⟨rfl, ?_⟩
  rw [show ([List.replicate 32766 'a' ++ ['%'], js "C3%A9"] : List JStr).headD [] =
    List.replicate 32766 'a' ++ ['%'] from rfl]
  exact List.getLast?_concat _

/-- C7 (corrected).  The serialization guard runs before any chunk is
written or deleted, so a throw leaves the owner's state unchanged, and
`set` throws exactly when the value is not the delete sentinel and the
serializer result does not pass the guard — but the claim misstates both
the accepted kinds and the error.  The guard also accepts `undefined`
(then `set` silently deletes the property instead of throwing), and the
error is not always `InvalidSerializationResult`: on a serializer result
of `null` the guard itself throws a `TypeError` reading `null.x`
(`typeof null === "object"`); `InvalidSerializationResult` is thrown
exactly when the guard returns false. -/
theorem claim_C7 (o : Owner) (id : JStr) (value : JVal) (opts : SetOpts) :
    ((set o id value opts).2.isSome ↔
      value.isUndef = false ∧
      isSerializedValueE ((opts.serialize.getD defaultSerialize) value
        (getNamespacedId opts.ns id)) ≠ .ok true) ∧
    ((set o id value opts).2 = some JsErr.invalidSerialization ↔
      value.isUndef = false ∧
      isSerializedValueE ((opts.serialize.getD defaultSerialize) value
        (getNamespacedId opts.ns id)) = .ok false) ∧
    ((set o id value opts).2 = some JsErr.typeError ↔
      value.isUndef = false ∧
      (opts.serialize.getD defaultSerialize) value (getNamespacedId opts.ns id) =
        JVal.null) ∧
    ((set o id value opts).2.isSome → (set o id value opts).1 = o) := by
  cases hu : value.isUndef with
  | true =>
    have hv := JVal.isUndef_eq_true hu
    subst hv
    have h0 : (set o id JVal.undef opts).2 = none := by rw [set_eq_of_undef]
    refine ⟨?_, ?_, ?_, ?_⟩
    · rw [h0]
      simp [JVal.isUndef]
    · rw [h0]
      simp [JVal.isUndef]
    · rw [h0]
      simp [JVal.isUndef]
    · rw [h0]
      simp
  | false =>
    cases hE : isSerializedValueE ((opts.serialize.getD defaultSerialize) value
        (getNamespacedId opts.ns id)) with
    | error e =>
      have hnull : (opts.serialize.getD defaultSerialize) value
          (getNamespacedId opts.ns id) = JVal.null := by
        cases hs : (opts.serialize.getD defaultSerialize) value
            (getNamespacedId opts.ns id) with
        | undef => rw [hs] at hE; exact Except.noConfusion hE
        | null => rfl
        | bool b => rw [hs] at hE; exact Except.noConfusion hE
        | num n => rw [hs] at hE; exact Except.noConfusion hE
        | str s => rw [hs] at hE; exact Except.noConfusion hE
        | arr xs => rw [hs] at hE; exact Except.noConfusion hE
        | obj fs => rw [hs] at hE; exact Except.noConfusion hE
      have hte : e = JsErr.typeError := by
        rw [hnull] at hE
        rw [show isSerializedValueE JVal.null = Except.error JsErr.typeError from rfl] at hE
        injection hE with h
        exact h.symm
      subst hte
      have hset := @set_eq_of_err o id value opts JsErr.typeError hu hE
      have h0 : (set o id value opts).2 = some JsErr.typeError := congrArg Prod.snd hset
      have h1 : (set o id value opts).1 = o := congrArg Prod.fst hset
      refine ⟨?_, ?_, ?_, ?_⟩
      · rw [h0]
        simp [hu, hE]
      · rw [h0]
        simp [hE]
      · rw [h0]
        simp [hu, hnull]
      · intro _
        exact h1
    | ok b =>
      cases b with
      | false =>
        have hset := @set_eq_of_bad o id value opts hu hE
        have h0 : (set o id value opts).2 = some .invalidSerialization :=
          congrArg Prod.snd hset
        have h1 : (set o id value opts).1 = o := congrArg Prod.fst hset
        have hnn : (opts.serialize.getD defaultSerialize) value
            (getNamespacedId opts.ns id) ≠ JVal.null := by
          intro hs
          rw [hs] at hE
          exact Except.noConfusion hE
        refine ⟨?_, ?_, ?_, ?_⟩
        · rw [h0]
          simp [hu, hE]
        · rw [h0]
          simp [hu, hE]
        · rw [h0]
          simp [hnn]
        · intro _
          exact h1
      | true =>
        have h0 := @set_snd_eq_none o id value opts hu hE
        have hnn : (opts.serialize.getD defaultSerialize) value
            (getNamespacedId opts.ns id) ≠ JVal.null := by
          intro hs
          rw [hs] at hE
          exact Except.noConfusion hE
        refine ⟨?_, ?_, ?_, ?_⟩
        · rw [h0]
          simp [hE]
        · rw [h0]
          simp [hE]
        · rw [h0]
          simp [hnn]
        · rw [h0]
          simp

/-- Counterexample to C7 as stated: a serializer returning `undefined` (not
one of the claim's four host-acceptable kinds) on a non-sentinel value does
NOT make `set` throw — it silently deletes the property; and a serializer
returning `null` makes `set` throw the guard's `TypeError`, not the
`InvalidSerializationResult` error the claim names. -/
theorem claim_C7_cx :
    (set (Owner.mk [(js "a_0", SVal.num 1)]) (js "a") (JVal.num 42)
      (SetOpts.mk none (some (fun _ _ => JVal.undef)))).2 = none ∧
    (JVal.num 42).isUndef = false ∧
    isHostPrimitive JVal.undef = false ∧
    (set (Owner.mk [(js "a_0", SVal.num 1)]) (js "a") (JVal.num 42)
      (SetOpts.mk none (some (fun _ _ => JVal.undef)))).1 = Owner.mk [] ∧
    (set (Owner.mk []) (js "a") (JVal.num 42)
      (SetOpts.mk none (some (fun _ _ => JVal.null)))).2 = some JsErr.typeError ∧
    isHostPrimitive JVal.null = false :=
  ⟨rfl, rfl, rfl, rfl, rfl, rfl⟩

/-- C8 (corrected).  A host key without a separator never matches any
chunk pattern, never enters the chunk-key sequence used by Get/exists, and
is skipped by `ids` — all silently.  But a key whose suffix after the last
separator does not parse as a non-negative integer (e.g. `"foo_bar"`),
while indeed never matching any chunk pattern, IS the basis of an id
yielded by `ids()`: `ids` only checks that a separator exists and never
validates the suffix (see the counterexample). -/
theorem claim_C8 :
    (∀ (k fullId : JStr), lastIndexOf CHUNK_SEP k = none →
      matchesChunkPattern fullId k = false) ∧
    (∀ (k fullId : JStr) (i : Nat), lastIndexOf CHUNK_SEP k = some i →
      jsParseInt (k.drop (i + 1)) = none →
      matchesChunkPattern fullId k = false) ∧
    (∀ (o : Owner) (k fullId : JStr), matchesChunkPattern fullId k = false →
      k ∉ getChunkPropertyIds o fullId) ∧
    (∀ (ns : Option JStr) (seen : List JStr) (k : JStr) (rest : List JStr),
      lastIndexOf CHUNK_SEP k = none →
      idsAux ns seen (k :: rest) = idsAux ns seen rest) := by
  refine ⟨?_, ?_, ?_, ?_⟩
  · intro k fullId hnone
    cases hm : matchesChunkPattern fullId k with
    | false => rfl
    | true =>
      exfalso
      obtain ⟨ds, rfl, hne, hdig⟩ := matchesChunkPattern_elim hm
      have hmem : CHUNK_SEP ∈ fullId ++ CHUNK_SEP :: ds :=
        List.mem_append_right _ (List.mem_cons_self _ _)
      have := lastIndexOf_isSome_of_mem hmem
      rw [hnone] at this
      exact Bool.noConfusion this
  · intro k fullId i hlast hparse
    cases hm : matchesChunkPattern fullId k with
    | false => rfl
    | true =>
      exfalso
      obtain ⟨ds, rfl, hne, hdig⟩ := matchesChunkPattern_elim hm
      rw [lastIndexOf_append_cons CHUNK_SEP fullId ds (sep_not_mem_digits hdig)] at hlast
      have hi : i = fullId.length := (Option.some_injective _ hlast).symm
      subst hi
      rw [drop_append_cons] at hparse
      unfold jsParseInt at hparse
      rw [show ds.takeWhile Char.isDigit = ds from by
        simpa using takeWhile_append_of_all (l := ds) [] hdig] at hparse
      cases ds with
      | nil => exact hne rfl
      | cons c cs => exact Option.noConfusion hparse
  · intro o k fullId hm hk
    have hmem : k ∈ o.propIds.filter (matchesChunkPattern fullId) :=
      (getChunkPropertyIds_perm o fullId).mem_iff.mp hk
    rw [List.mem_filter] at hmem
    rw [hm] at hmem
    exact Bool.noConfusion hmem.2
  · intro ns seen k rest hnone
    simp only [idsAux]
    rw [hnone]

/-- Witness for C8 at concrete inputs: the separator-free key `"ab"`, the
unparsable-suffix key `"foo_bar"`, and `ids`' skip of `"ab"`. -/
theorem claim_C8_witness :
    matchesChunkPattern (js "a") (js "ab") = false ∧
    matchesChunkPattern (js "foo") (js "foo_bar") = false ∧
    (js "foo_bar") ∉ getChunkPropertyIds
      (Owner.mk [(js "foo_bar", SVal.str (js "x"))]) (js "foo") ∧
    idsAux none [] [js "ab", js "a_1"] = idsAux none [] [js "a_1"] :=
  ⟨claim_C8.1 (js "ab") (js "a") (by decide),
   claim_C8.2.1 (js "foo_bar") (js "foo") 3 (by decide) (by decide),
   claim_C8.2.2.1 (Owner.mk [(js "foo_bar", SVal.str (js "x"))]) (js "foo_bar") (js "foo")
     (by decide),
   claim_C8.2.2.2 none [] (js "ab") [js "a_1"] (by decide)⟩

/-- Counterexample to C8 as stated: the suffix `"bar"` of `"foo_bar"` does
not parse as a non-negative integer, yet `ids` yields `"foo"` on its
basis. -/
theorem claim_C8_cx :
    jsParseInt (js "bar") = none ∧
    ids (Owner.mk [(js "foo_bar", SVal.str (js "x"))]) none = [js "foo"] :=
  ⟨rfl, rfl⟩

/-- C9 (corrected).  `get` returns the absent sentinel without invoking any
deserializer exactly when NO chunk key for the namespaced id exists at ANY
index — not when index 0 is missing, as the claim states: a host state
holding only `"a_1"` makes `get` reassemble from it and return a value
(see the counterexample). -/
theorem claim_C9 (o : Owner) (id : JStr) (ns : Option JStr) :
    ((∀ d : Deserializer, get o id (GetOpts.mk ns (some d)) = .ok .undef) ↔
      getChunkPropertyIds o (getNamespacedId ns id) = []) ∧
    (getChunkPropertyIds o (getNamespacedId ns id) = [] →
      get o id (GetOpts.mk ns none) = .ok .undef) := by
  have hbase : ∀ (dopt : Option Deserializer),
      getChunkPropertyIds o (getNamespacedId ns id) = [] →
      get o id (GetOpts.mk ns dopt) = .ok .undef := by
    intro dopt hempty
    unfold get
    dsimp only
    rw [hempty]
    rfl
  refine ⟨⟨?_, ?_⟩, hbase none⟩
  · intro hall
    by_contra hne
    have h0 := hall (fun _ _ => Except.ok (JVal.num 0))
    unfold get at h0
    dsimp only at h0
    rw [if_neg (fun him => hne (List.isEmpty_iff.mp him))] at h0
    split at h0
    · split at h0
      · have h1 : (Except.ok (JVal.num 0) : Except JsErr JVal) = Except.ok JVal.undef := h0
        injection h1 with h2
        exact JVal.noConfusion h2
      · exact Except.noConfusion h0
    · have h1 : (Except.ok (JVal.num 0) : Except JsErr JVal) = Except.ok JVal.undef := h0
      injection h1 with h2
      exact JVal.noConfusion h2
  · intro hempty d
    exact hbase (some d) hempty

/-- Counterexample to C9 as stated: with only the index-1 chunk `"a_1"`
present (no index-0 chunk), `get` does not return the absent sentinel — it
reassembles the value from the chunks that do exist. -/
theorem claim_C9_cx :
    (Owner.mk [(js "a_1", SVal.str (js "5"))]).getProp (getChunkPropertyId (js "a") 0) =
      none ∧
    get (Owner.mk [(js "a_1", SVal.str (js "5"))]) (js "a") (GetOpts.mk none none) =
      .ok (JVal.num 5) :=
  ⟨rfl, rfl⟩

/-- C10 (confirmed).  When the value is not the delete sentinel but the
active serializer returns the empty string, `set` does not throw, writes
zero chunks and deletes every previously-existing chunk of the id:
afterwards no chunk key remains, `exists` is false, and `get` returns the
absent sentinel. -/
theorem claim_C10 {o : Owner} (id : JStr) (ns : Option JStr) {value : JVal}
    (hval : value.isUndef = false) :
    (set o id value (SetOpts.mk ns (some (fun _ _ => JVal.str [])))).2 = none ∧
    getChunkPropertyIds
      (set o id value (SetOpts.mk ns (some (fun _ _ => JVal.str [])))).1
      (getNamespacedId ns id) = [] ∧
    existsProp (set o id value (SetOpts.mk ns (some (fun _ _ => JVal.str [])))).1 id ns =
      false ∧
    get (set o id value (SetOpts.mk ns (some (fun _ _ => JVal.str [])))).1 id
      (GetOpts.mk ns none) = .ok .undef := by
  have hser : ((SetOpts.mk ns (some (fun _ _ => JVal.str []))).serialize.getD
      defaultSerialize) value
      (getNamespacedId (SetOpts.mk ns (some (fun _ _ => JVal.str []))).ns id) =
      .str [] := rfl
  have hset := @set_eq_of_str o id value
    (SetOpts.mk ns (some (fun _ _ => JVal.str []))) [] hval hser
  have hstate : (set o id value (SetOpts.mk ns (some (fun _ _ => JVal.str [])))).1 =
      deleteFrom (writeChunks o (getNamespacedId ns id) 0 [])
        (getChunkPropertyIds o (getNamespacedId ns id)) 0 :=
    congrArg Prod.fst hset
  have h2 : getChunkPropertyIds
      (set o id value (SetOpts.mk ns (some (fun _ _ => JVal.str [])))).1
      (getNamespacedId ns id) = [] := by
    rw [hstate]
    exact getChunkPropertyIds_eq_nil filter_matching_after_empty
  refine ⟨?_, h2, ?_, ?_⟩
  · exact congrArg Prod.snd hset
  · unfold existsProp
    rw [h2]
    rfl
  · unfold get
    dsimp only
    rw [h2]
    rfl

/-- Witness for C10 at a concrete input: a prior chunk exists and a
non-sentinel value is written through the empty-string serializer. -/
theorem claim_C10_witness :
    (set (Owner.mk [(js "b_0", SVal.str (js "x"))]) (js "b") (JVal.num 3)
      (SetOpts.mk none (some (fun _ _ => JVal.str [])))).2 = none ∧
    getChunkPropertyIds
      (set (Owner.mk [(js "b_0", SVal.str (js "x"))]) (js "b") (JVal.num 3)
        (SetOpts.mk none (some (fun _ _ => JVal.str [])))).1
      (getNamespacedId none (js "b")) = [] ∧
    existsProp
      (set (Owner.mk [(js "b_0", SVal.str (js "x"))]) (js "b") (JVal.num 3)
        (SetOpts.mk none (some (fun _ _ => JVal.str [])))).1 (js "b") none = false ∧
    get (set (Owner.mk [(js "b_0", SVal.str (js "x"))]) (js "b") (JVal.num 3)
        (SetOpts.mk none (some (fun _ _ => JVal.str [])))).1 (js "b")
      (GetOpts.mk none none) = .ok .undef :=
  @claim_C10 (Owner.mk [(js "b_0", SVal.str (js "x"))]) (js "b") none (JVal.num 3) rfl

end DynamicProperty
